import Mathlib

/-!
# romswak: the word encoding engine of `src/main.cpp`

A shallow embedding of the encoding paths of `main.cpp` and the properties
of its binary-string conversion, word packing, big-endian byte writing and
MIF document layout.

Conventions of the embedding.

* A C++ `int` is an `Int`; where the source can leave the 32-bit range
  (the left shift of the packing loop) the result is wrapped by `wrap32`.
  `a & b`, `a | b`, `a >> k` and `a << k` are `Int.land`, `Int.lor`,
  `Int.shiftRight` (arithmetic shift) and `<<<`.
* A byte of a `QByteArray` or of the output file is a `Fin 256`, its value
  read as `unsigned char`.
* The `QTextStream` is the list of lines closed by `endl` so far together
  with the text of the line being written.
* A `for (int i = 0; i < n; i++)` loop is a left fold over `0 .. n-1`.
* The sine samples are computed by the source in `double` arithmetic; the
  value `intValue` of iteration `i` is a parameter `intValue : Nat → Int`.
-/

namespace Romswak

/-! ## Data model -/

/-- One byte, as the value of its `unsigned char` reading. -/
abbrev Byte := Fin 256

/-- Reduction of an integer to the range of a 32-bit two's complement `int`. -/
def wrap32 (x : Int) : Int := (x + 2 ^ 31) % 2 ^ 32 - 2 ^ 31

/-- Conversion of an `int` to `char`: the low eight bits. -/
def toByte (x : Int) : Byte := Fin.ofNat (x % 256).toNat

/-- State of the `QTextStream output`: the lines already closed by `endl`,
in order, and the text written since the last `endl`. -/
structure TextStream where
  /-- Lines closed by `endl`, oldest first. -/
  lines : List String
  /-- Text of the line under construction. -/
  cur : String
deriving DecidableEq

/-- A stream nothing has been written to. -/
def TextStream.empty : TextStream := ⟨[], ""⟩

/-- Effect of `out << s` for a string `s`. -/
def TextStream.put (out : TextStream) (s : String) : TextStream :=
  ⟨out.lines, out.cur ++ s⟩

/-- Effect of `out << endl`. -/
def TextStream.endl (out : TextStream) : TextStream :=
  ⟨out.lines ++ [out.cur], ""⟩

/-- The characters the stream holds: every closed line followed by a newline,
then the pending text. -/
def TextStream.text (out : TextStream) : String :=
  String.join (out.lines.map (fun l => l ++ "\n")) ++ out.cur

/-- The diagnostics of `main` that are followed by `return 0`. -/
inductive Diag
  /-- Message "Sine mode: No valid word width defined!" -/
  | sineNoWidth
  /-- Message "Sine mode: No valid length defined!" -/
  | sineNoLength
  /-- Message "Can not open input file" (the open failed). -/
  | cantOpenInput (filename : String)
  /-- Message "Invalid offset ... for inputfile ...". -/
  | invalidOffset (token filename : String)
  /-- Message "Invalid length ... for inputfile ...". -/
  | invalidLength (token filename : String)
  /-- Message "Data mode: max 32-bit wide word width allowed!" -/
  | widthTooWide
  /-- Message "Data mode: file length ... is not divisible by input word size". -/
  | lengthMismatch (dataLength inputWordBytes : Int)
  /-- The segment loop ran past the last argument (`at` out of range). -/
  | argumentsExhausted
deriving DecidableEq

/-- What a run leaves behind: the text sent through `output`, the bytes
sent through `outputFile.write`, and the diagnostic of an early `return 0`. -/
structure Run where
  /-- Text written through the `QTextStream`. -/
  output : TextStream
  /-- Bytes written through `outputFile.write`. -/
  outputFile : List Byte
  /-- Diagnostic of the early return, if the run took one. -/
  error : Option Diag
deriving DecidableEq

/-- The loop `for (int i = 0; i < n; i++) body`, threading the state `s`. -/
def forLoop {σ : Type} (n : Int) (body : Nat → σ → σ) (s : σ) : σ :=
  (List.range n.toNat).foldl (fun s i => body i s) s

/-! ## `writeMifHeader`, `writeMifFooter`, `intToBin` (lines 35-66) -/

/-- The `foreach` of lines 38-44: the first argument is replaced by
`romswak `, every other argument is written followed by a space. -/
def echoArguments : List String → Bool → TextStream → TextStream
  | [], _, out => out
  | arg :: rest, first, out =>
    if first then echoArguments rest false (out.put "romswak ")
    else echoArguments rest false ((out.put arg).put " ")

/-- Lines 35-52. -/
def writeMifHeader (args : List String) (out : TextStream) (wordCount wordWidth : Int) :
    TextStream :=
  let out := out.put "-- "
  let out := echoArguments args true out
  let out := out.endl.endl
  let out := (((out.put "DEPTH = ").put (toString wordCount)).put ";").endl
  let out := (((out.put "WIDTH = ").put (toString wordWidth)).put ";").endl
  let out := ((out.put "ADDRESS_RADIX = DEC").put ";").endl
  let out := ((out.put "DATA_RADIX = BIN").put ";").endl.endl
  ((out.put "CONTENT").endl.put "BEGIN").endl

/-- Lines 54-57. -/
def writeMifFooter (out : TextStream) : TextStream :=
  (out.put "END;").endl

/-- The loop of `intToBin` (lines 61-64) with `n` iterations left. -/
def intToBinLoop : Nat → Int → String → String
  | 0, _, bin => bin
  | n + 1, a, bin =>
    intToBinLoop n (Int.shiftRight a 1) ((if Int.land a 1 ≠ 0 then "1" else "0") ++ bin)

/-- Lines 59-66. -/
def intToBin (a : Int) (width : Int) : String :=
  intToBinLoop width.toNat a ""

/-! ## Sine mode (lines 88-151) -/

/-- Lines 128-136. For a width above 32 no branch assigns the variable; its
value is then whatever the uninitialised `int` holds, here `indeterminate`. -/
def outputWordBytes (width : Int) (indeterminate : Int) : Int :=
  if width ≤ 8 then 1
  else if width ≤ 16 then 2
  else if width ≤ 24 then 3
  else if width ≤ 32 then 4
  else indeterminate

/-- Lines 142-146: the big-endian write loop for one word. -/
def writeBigEndian (intValue : Int) (outputWordBytes : Int) (file : List Byte) : List Byte :=
  forLoop outputWordBytes
    (fun j file =>
      file ++ [toByte
        (Int.land (Int.shiftRight intValue (((outputWordBytes - j - 1) * 8).toNat)) 0xFF)])
    file

/-- One data line of the sine MIF branch (line 121). -/
def sineLine (width : Int) (i : Nat) (intValue : Int) (out : TextStream) : TextStream :=
  (((((out.put (toString i)).put " : ").put (intToBin intValue width)).put
    ";       -- ").put (toString intValue)).endl

/-- Lines 88-151, from the resolved options `width`, `length`, `-mif`. -/
def sineMode (args : List String) (width length : Int) (mif : Bool)
    (intValue : Nat → Int) (indeterminate : Int) : Run :=
  if width < 2 then ⟨TextStream.empty, [], some Diag.sineNoWidth⟩
  else if length = 0 then ⟨TextStream.empty, [], some Diag.sineNoLength⟩
  else if mif then
    let out := writeMifHeader args TextStream.empty length width
    let out := out.endl
    let out := forLoop length (fun i out => sineLine width i (intValue i) out) out
    let out := out.endl
    ⟨writeMifFooter out, [], none⟩
  else
    let wb := outputWordBytes width indeterminate
    ⟨TextStream.empty,
      forLoop length (fun i file => writeBigEndian (intValue i) wb file) [],
      none⟩

/-! ## Data mode (lines 153-247) -/

/-- The test `QString::startsWith("-")`. -/
def startsWithDash (s : String) : Bool :=
  match s.data with
  | c :: _ => c == '-'
  | [] => false

/-- The call `QString::split(",")` on the characters of the argument: the fields
between commas, empty fields kept. -/
def splitComma : List Char → List String
  | [] => [""]
  | c :: cs =>
    match splitComma cs with
    | [] => [""]
    | field :: fields =>
      if c = ',' then "" :: field :: fields else String.mk (c :: field.data) :: fields

/-- The call `file.seek(offset)` followed by `file.read(length)` on a file with the
bytes `file`: a negative offset is refused and leaves the position at 0, a
position past the end reads nothing, and a negative length reads nothing. -/
def seekRead (file : List Byte) (offset length : Int) : List Byte :=
  (file.drop offset.toNat).take length.toNat

/-- One pass of the segment loop (lines 165-204) for the argument `arg`:
the bytes it appends to `data`, or the diagnostic of its `return 0`.
`fs` gives the bytes of every file that can be opened; `toInt` and
`toLongLong` are the Qt conversions, `none` when they report `ok = false`. -/
def readSegment (fs : String → Option (List Byte)) (toInt toLongLong : String → Option Int)
    (arg : String) : Except Diag (List Byte) :=
  let inputFileArg := splitComma arg.data
  let filename := inputFileArg.getD 0 ""
  match fs filename with
  | none => Except.error (Diag.cantOpenInput filename)
  | some file =>
    let offsetResult : Except Diag Int :=
      if inputFileArg.length > 1 then
        match toInt (inputFileArg.getD 1 "") with
        | none => Except.error (Diag.invalidOffset (inputFileArg.getD 1 "") filename)
        | some v => Except.ok v
      else Except.ok 0
    match offsetResult with
    | Except.error d => Except.error d
    | Except.ok offset =>
      let lengthResult : Except Diag Int :=
        if inputFileArg.length < 3 then Except.ok ((file.length : Int) - offset)
        else
          match toLongLong (inputFileArg.getD 2 "") with
          | none => Except.error (Diag.invalidLength (inputFileArg.getD 2 "") filename)
          | some v => Except.ok v
      match lengthResult with
      | Except.error d => Except.error d
      | Except.ok length => Except.ok (seekRead file offset length)

/-- The `while` loop of lines 164-206 over the arguments from `argIndex` on. -/
def readSegments (fs : String → Option (List Byte)) (toInt toLongLong : String → Option Int) :
    List String → List Byte → Except Diag (List Byte)
  | [], _ => Except.error Diag.argumentsExhausted
  | arg :: rest, data =>
    if startsWithDash arg then Except.ok data
    else
      match readSegment fs toInt toLongLong arg with
      | Except.error d => Except.error d
      | Except.ok bytes => readSegments fs toInt toLongLong rest (data ++ bytes)

/-- Lines 210-222: `none` is the `else` branch that reports the width. -/
def inputWordBytes (width : Int) : Option Int :=
  if width ≤ 8 then some 1
  else if width ≤ 16 then some 2
  else if width ≤ 24 then some 3
  else if width ≤ 32 then some 4
  else none

/-- Lines 238-240: one pass of the inner loop on the pair of `word` and
`byteIndex`. -/
def packByte (data : List Byte) (s : Int × Nat) : Int × Nat :=
  (Int.lor (wrap32 (s.1 <<< (8 : Int))) ((data.getD s.2 0).val : Int), s.2 + 1)

/-- Lines 235-241: one word read big-endian from `byteIndex` on; returns the
word and the advanced `byteIndex`. -/
def packWord (data : List Byte) (inputWordBytes : Int) (byteIndex : Nat) : Int × Nat :=
  forLoop inputWordBytes (fun _ s => packByte data s) (0, byteIndex)

/-- One pass of the loop of lines 234-243: pack a word, write its line. -/
def dataLine (data : List Byte) (inputWordBytes width : Int) (i : Nat)
    (s : TextStream × Nat) : TextStream × Nat :=
  let w := packWord data inputWordBytes s.2
  (((((s.1.put (toString i)).put " : ").put (intToBin w.1 width)).put ";").endl, w.2)

/-- The values `word` takes at line 242, in order: the loop of lines 233-243
with the output statement replaced by recording the word. -/
def packWords (data : List Byte) (inputWordBytes wordCount : Int) : List Int :=
  (forLoop wordCount
    (fun _ (s : List Int × Nat) =>
      let w := packWord data inputWordBytes s.2
      (s.1 ++ [w.1], w.2))
    ([], 0)).1

/-- Lines 208-246: what data mode does with the buffer `data` once the
segments are read. -/
def dataEncode (args : List String) (data : List Byte) (width : Int) (mifOutput : Bool) :
    Run :=
  if mifOutput then
    match inputWordBytes width with
    | none => ⟨TextStream.empty, [], some Diag.widthTooWide⟩
    | some wb =>
      if Int.tmod data.length wb ≠ 0 then
        ⟨TextStream.empty, [], some (Diag.lengthMismatch data.length wb)⟩
      else
        let wordCount := Int.tdiv data.length wb
        let out := writeMifHeader args TextStream.empty wordCount width
        let s := forLoop wordCount (fun i s => dataLine data wb width i s) (out, 0)
        ⟨writeMifFooter s.1, [], none⟩
  else ⟨TextStream.empty, data, none⟩

/-- Lines 153-247, from the resolved options `-width` and `-mif`. -/
def dataMode (args : List String) (fs : String → Option (List Byte))
    (toInt toLongLong : String → Option Int) (width : Int) (mifOutput : Bool) : Run :=
  let width := if width = 0 ∧ mifOutput = true then 8 else width
  match readSegments fs toInt toLongLong (args.drop 2) [] with
  | Except.error d => ⟨TextStream.empty, [], some d⟩
  | Except.ok data => dataEncode args data width mifOutput

/-! ## Reading the outputs back -/

/-- Value of a string of binary digits read as an unsigned numeral, most
significant digit first. -/
def binValue (digits : List Char) : Nat :=
  digits.foldl (fun acc c => 2 * acc + (if c = '1' then 1 else 0)) 0

/-- Value of a byte sequence read as a big-endian unsigned number. -/
def bigEndianValue (bytes : List Byte) : Nat :=
  bytes.foldl (fun acc b => 256 * acc + b.val) 0

/-- The byte the write loop emits at pass `j` for a word of `wb` bytes. -/
def bigEndianByte (word : Int) (wb j : Nat) : Byte :=
  toByte (Int.land (Int.shiftRight word ((wb - j - 1) * 8)) 0xFF)

/-- The arguments of a list, each followed by a space. -/
def echoText : List String → String
  | [] => ""
  | arg :: rest => arg ++ " " ++ echoText rest

/-- The nine lines of a MIF header as the format lays them out: the comment
line with the invocation, a blank line, the four declarations, a blank
line, `CONTENT` and `BEGIN`. -/
def mifHeaderLines (args : List String) (wordCount wordWidth : Int) : List String :=
  ["-- romswak " ++ echoText args.tail,
   "",
   "DEPTH = " ++ toString wordCount ++ ";",
   "WIDTH = " ++ toString wordWidth ++ ";",
   "ADDRESS_RADIX = DEC;",
   "DATA_RADIX = BIN;",
   "",
   "CONTENT",
   "BEGIN"]

/-- A data line of the data-mode document: the address in decimal, ` : `, the
binary digits of the word, `;`. -/
def dataLineText (width : Int) (k : Nat) (word : Int) : String :=
  toString k ++ " : " ++ intToBin word width ++ ";"

/-- A data line of the sine-mode document: the data-mode line followed by
the comment with the value in decimal. -/
def sineLineText (width : Int) (k : Nat) (value : Int) : String :=
  toString k ++ " : " ++ intToBin value width ++ ";       -- " ++ toString value

/-- The lines of a document strictly between the first `BEGIN` line and the
next `END;` line. -/
def mifBody (doc : List String) : List String :=
  ((doc.dropWhile (fun l => l != "BEGIN")).drop 1).takeWhile (fun l => l != "END;")

/-- The data lines of a document: the lines between `BEGIN` and `END;` that
are not blank. -/
def mifDataLines (doc : List String) : List String :=
  (mifBody doc).filter (fun l => l != "")

/-- The declaration of the depth: the first line that starts with `DEPTH = `. -/
def mifDepthLine (doc : List String) : Option String :=
  doc.find? (fun l => "DEPTH = ".data.isPrefixOf l.data)

/-- An input segment as the data model describes it: the bytes of the file,
and the offset and the length when the argument gives them. -/
structure Segment where
  /-- Bytes of the input file. -/
  file : List Byte
  /-- Offset named by the argument, if any. -/
  offset : Option Int
  /-- Length named by the argument, if any. -/
  length : Option Int

/-- The slice of a segment: the bytes from the offset on, at most `length`
of them; a missing offset is 0 and a missing length is the rest of the file
after the offset. -/
def Segment.slice (seg : Segment) : List Byte :=
  let fromOffset := seg.file.drop (seg.offset.getD 0).toNat
  match seg.length with
  | none => fromOffset
  | some len => fromOffset.take len.toNat

/-- The buffer the data model prescribes for a list of segments: their
slices, concatenated in order. -/
def concatSegments (segs : List Segment) : List Byte :=
  (segs.map Segment.slice).flatten

/-- The argument `arg` names the segment `seg`: its first field is a file
that opens with the bytes of `seg`, its second field, when there is one,
converts to the offset of `seg`, and its third field, when there is one,
converts to the length of `seg`. -/
def describes (fs : String → Option (List Byte)) (toInt toLongLong : String → Option Int)
    (arg : String) (seg : Segment) : Bool :=
  let fields := splitComma arg.data
  fs (fields.getD 0 "") == some seg.file
    && (if fields.length > 1 then
          seg.offset.isSome && toInt (fields.getD 1 "") == seg.offset
        else seg.offset == none)
    && (if fields.length < 3 then seg.length == none
        else seg.length.isSome && toLongLong (fields.getD 2 "") == seg.length)

/-! ## Sine mode: scale and quantizer (lines 103-119) -/

/-- Lines 103-108: the scale of the sine wave from the width and the
amplitude option. The shift `1 << width` is taken in `int`: for
`0 ≤ width < 32` its value is `2^width` wrapped to 32 bits; for any other
width the shift count is out of range for a 32-bit `int` and the value the
shift yields is the parameter `undefinedShift`. The subtraction and the
doubling of the amplitude wrap to 32 bits. -/
def sineScale (width amplitude : Int) (undefinedShift : Int) : Int :=
  let shifted := if 0 ≤ width ∧ width < 32 then wrap32 ((1 : Int) <<< width) else undefinedShift
  let scale := wrap32 (shifted - 2)
  if amplitude = 0 then scale else wrap32 (amplitude * 2)

/-- Lines 118-119 with the arithmetic taken exact in an ordered field `K`
with a floor: `sinPhase` stands for `sin(phase)`, the rounding of `double`
is left out. -/
def quantize {K : Type} [LinearOrderedField K] [FloorRing K]
    (sinPhase offset : K) (scale : Int) (doSigned : Bool) : Int :=
  ⌊(1 / 2 * sinPhase + offset + (if doSigned then 0 else 1 / 2)) * (scale : K)⌋
    + (if doSigned then 0 else 1)

/-! ## Comparing and chaining the outputs -/

/-- The characters of a line up to and including its first `;`; a line
without `;` is kept whole. -/
def cutAfterSemicolon : List Char → List Char
  | [] => []
  | c :: cs => if c = ';' then [';'] else c :: cutAfterSemicolon cs

/-- A line with what follows its first `;` removed: on a data line of sine
mode this removes the trailing comment. -/
def stripComment (l : String) : String :=
  String.mk (cutAfterSemicolon l.data)

/-- The lines of a document from the `DEPTH` declaration on. -/
def fromDepth (doc : List String) : List String :=
  doc.dropWhile (fun l => !("DEPTH = ".data.isPrefixOf l.data))

/-- The seven lines of a MIF header from the `DEPTH` declaration to `BEGIN`. -/
def depthToBegin (wordCount wordWidth : Int) : List String :=
  ["DEPTH = " ++ toString wordCount ++ ";",
   "WIDTH = " ++ toString wordWidth ++ ";",
   "ADDRESS_RADIX = DEC;",
   "DATA_RADIX = BIN;",
   "",
   "CONTENT",
   "BEGIN"]

/-- The write loop of lines 143-146 run on each word of a sequence in turn,
as the raw branch of sine mode runs it on each sample. -/
def serializeWords (words : List Int) (wb : Int) : List Byte :=
  words.foldl (fun file word => writeBigEndian word wb file) []

/-! ## Arithmetic of the bit operations -/

theorem negSucc_emod_two_pow (n k : Nat) :
    (-((n : Int) + 1)) % 2 ^ k = 2 ^ k - 1 - ((n % 2 ^ k : Nat) : Int) := by
  have hpos : 0 < 2 ^ k := Nat.two_pow_pos k
  have hlt : n % 2 ^ k < 2 ^ k := Nat.mod_lt _ hpos
  have hdiv : (n : Int) = 2 ^ k * ((n / 2 ^ k : Nat) : Int) + ((n % 2 ^ k : Nat) : Int) := by
    have := Nat.div_add_mod n (2 ^ k)
    exact_mod_cast this.symm
  have hP : ((2 ^ k : Nat) : Int) = (2 : Int) ^ k := by simp
  have hlt2 : ((n % 2 ^ k : Nat) : Int) < (2 : Int) ^ k := by rw [← hP]; exact_mod_cast hlt
  have hnn : (0 : Int) ≤ ((n % 2 ^ k : Nat) : Int) := Int.ofNat_nonneg _
  have e : -((n : Int) + 1)
      = (2 ^ k - 1 - ((n % 2 ^ k : Nat) : Int)) + 2 ^ k * (-(((n / 2 ^ k : Nat) : Int) + 1)) := by
    rw [hdiv]; push_cast; ring
  rw [e, Int.add_mul_emod_self_left]
  apply Int.emod_eq_of_lt <;> omega

theorem nat_ldiff_mask (k n : Nat) : Nat.ldiff (2 ^ k - 1) n = 2 ^ k - 1 - n % 2 ^ k := by
  apply Nat.eq_of_testBit_eq
  intro i
  have hlt : n % 2 ^ k < 2 ^ k := Nat.mod_lt _ (Nat.two_pow_pos k)
  have e : 2 ^ k - 1 - n % 2 ^ k = 2 ^ k - (n % 2 ^ k + 1) := by omega
  rw [Nat.testBit_ldiff, Nat.testBit_two_pow_sub_one, e, Nat.testBit_two_pow_sub_succ hlt,
    Nat.testBit_mod_two_pow]
  by_cases h : i < k <;> simp [h]

/-- Masking with `2^k - 1` keeps the residue modulo `2^k`, also for a
negative operand. -/
theorem int_land_mask (a : Int) (k : Nat) : Int.land a (2 ^ k - 1) = a % 2 ^ k := by
  have hpos : 0 < 2 ^ k := Nat.two_pow_pos k
  have hm : ((2 : Int) ^ k - 1) = ((2 ^ k - 1 : Nat) : Int) := by
    rw [Nat.cast_sub hpos]; simp
  rw [hm]
  cases a with
  | ofNat n =>
    show ((n &&& (2 ^ k - 1) : Nat) : Int) = _
    rw [Nat.and_pow_two_sub_one_eq_mod]
    simp
  | negSucc n =>
    show ((Nat.ldiff (2 ^ k - 1) n : Nat) : Int) = _
    rw [nat_ldiff_mask, Int.negSucc_eq, negSucc_emod_two_pow]
    have hlt : n % 2 ^ k < 2 ^ k := Nat.mod_lt _ hpos
    have : n % 2 ^ k ≤ 2 ^ k - 1 := by omega
    rw [Nat.cast_sub this, Nat.cast_sub hpos]; simp

theorem int_land_one (a : Int) : Int.land a 1 = a % 2 := by
  have := int_land_mask a 1
  simpa using this

theorem int_land_255 (a : Int) : Int.land a 0xFF = a % 256 := by
  have := int_land_mask a 8
  norm_num at this
  exact this

theorem int_shiftRight_eq (a : Int) (k : Nat) : Int.shiftRight a k = a / 2 ^ k := by
  have := Int.shiftRight_eq_div_pow a k
  simpa using this

/-- Peeling the lowest bit: the residue modulo `2^(n+1)` from that of the
half modulo `2^n`. -/
theorem emod_two_pow_succ (a : Int) (n : Nat) :
    a % 2 ^ (n + 1) = 2 * ((a / 2) % 2 ^ n) + a % 2 := by
  have hk : (0 : Int) < 2 ^ n := by positivity
  have h1 := Int.emod_add_ediv a 2
  have h2 := Int.emod_add_ediv (a / 2) (2 ^ n)
  have h3 := Int.emod_nonneg a (show (2 : Int) ≠ 0 by norm_num)
  have h4 := Int.emod_lt_of_pos a (show (0 : Int) < 2 by norm_num)
  have h5 := Int.emod_nonneg (a / 2) (ne_of_gt hk)
  have h6 := Int.emod_lt_of_pos (a / 2) hk
  have e : a = (2 * ((a / 2) % 2 ^ n) + a % 2) + 2 ^ (n + 1) * ((a / 2) / 2 ^ n) := by
    rw [pow_succ]
    linear_combination (-1 : Int) * h1 - 2 * h2
  have hp : (2 : Int) ^ (n + 1) = 2 * 2 ^ n := by rw [pow_succ]; ring
  conv_lhs => rw [e]
  rw [Int.add_mul_emod_self_left]
  apply Int.emod_eq_of_lt <;> omega

/-! ## `intToBin` -/

theorem binValue_append_one (xs : List Char) (c : Char) :
    binValue (xs ++ [c]) = 2 * binValue xs + (if c = '1' then 1 else 0) := by
  simp [binValue, List.foldl_append]

theorem intToBinLoop_data (n : Nat) (a : Int) (bin : String) :
    (intToBinLoop n a bin).data = (intToBinLoop n a "").data ++ bin.data := by
  induction n generalizing a bin with
  | zero => simp [intToBinLoop]
  | succ n ih =>
    simp only [intToBinLoop]
    rw [ih, ih (Int.shiftRight a 1) (_ ++ "")]
    simp [String.data_append]

theorem intToBinLoop_succ_data (n : Nat) (a : Int) :
    (intToBinLoop (n + 1) a "").data
      = (intToBinLoop n (a / 2) "").data ++ [if a % 2 ≠ 0 then '1' else '0'] := by
  simp only [intToBinLoop]
  rw [intToBinLoop_data, int_land_one, int_shiftRight_eq]
  by_cases h : a % 2 = 0 <;> simp [h, String.data_append]

theorem intToBinLoop_value (n : Nat) (a : Int) :
    ((binValue (intToBinLoop n a "").data : Nat) : Int) = a % 2 ^ n := by
  induction n generalizing a with
  | zero => simp [intToBinLoop, binValue, Int.emod_one]
  | succ n ih =>
    rw [intToBinLoop_succ_data, binValue_append_one, emod_two_pow_succ]
    push_cast
    rw [ih]
    have h3 := Int.emod_nonneg a (show (2 : Int) ≠ 0 by norm_num)
    have h4 := Int.emod_lt_of_pos a (show (0 : Int) < 2 by norm_num)
    by_cases h : a % 2 = 0
    · simp [h]
    · have h1 : a % 2 = 1 := by omega
      simp [h1]

theorem intToBinLoop_length (n : Nat) (a : Int) :
    (intToBinLoop n a "").data.length = n := by
  induction n generalizing a with
  | zero => simp [intToBinLoop]
  | succ n ih => rw [intToBinLoop_succ_data]; simp [ih]

theorem intToBinLoop_digits (n : Nat) (a : Int) :
    ∀ c ∈ (intToBinLoop n a "").data, c = '0' ∨ c = '1' := by
  induction n generalizing a with
  | zero => simp [intToBinLoop]
  | succ n ih =>
    rw [intToBinLoop_succ_data]
    intro c hc
    rcases List.mem_append.mp hc with h | h
    · exact ih _ c h
    · by_cases h2 : a % 2 = 0 <;> simp [h2] at h <;> simp [h]

/-- C1: for every width in [1,32] and every 32-bit integer `v`, negative
values included, the string `intToBin v width` read as an unsigned binary
numeral, most significant digit first, is `v mod 2^width`. The equation
holds for every integer `v` and every `width`, the loop running
`width.toNat` times. -/
theorem intToBin_value (v width : Int) :
    ((binValue (intToBin v width).data : Nat) : Int) = v % 2 ^ width.toNat := by
  unfold intToBin
  exact intToBinLoop_value _ _

/-- C2: for every width in [1,32] and every integer `v`, `intToBin v width`
has exactly `width` characters and each of them is `'0'` or `'1'`. -/
theorem intToBin_shape (v width : Int) (hw : 1 ≤ width ∧ width ≤ 32) :
    ((intToBin v width).length : Int) = width ∧
      ∀ c ∈ (intToBin v width).data, c = '0' ∨ c = '1' := by
  unfold intToBin
  refine ⟨?_, intToBinLoop_digits _ _⟩
  rw [String.length, intToBinLoop_length]
  omega

theorem intToBin_shape_witness :
    ((1 : Int) ≤ 12 ∧ (12 : Int) ≤ 32) ∧
      (((intToBin (-5) 12).length : Int) = 12 ∧
        ∀ c ∈ (intToBin (-5) 12).data, c = '0' ∨ c = '1') :=
  ⟨by decide, intToBin_shape (-5) 12 (by decide)⟩

/-! ## The `for` loop -/

theorem forLoop_nat {σ : Type} (n : Nat) (body : Nat → σ → σ) (s : σ) :
    forLoop (n : Int) body s = (List.range n).foldl (fun s i => body i s) s := by
  simp [forLoop]

theorem forLoop_zero {σ : Type} (body : Nat → σ → σ) (s : σ) :
    forLoop ((0 : Nat) : Int) body s = s := by
  simp [forLoop]

theorem forLoop_succ {σ : Type} (n : Nat) (body : Nat → σ → σ) (s : σ) :
    forLoop ((n + 1 : Nat) : Int) body s = body n (forLoop (n : Int) body s) := by
  rw [forLoop_nat, forLoop_nat, List.range_succ, List.foldl_append]
  rfl

/-! ## The packing loop of data mode -/

theorem nat_ldiff_low (q b : Nat) (hb : b < 256) :
    Nat.ldiff (2 ^ 8 * q + 255) b = 2 ^ 8 * q + (255 - b) := by
  apply Nat.eq_of_testBit_eq
  intro i
  have h255 : 255 < 2 ^ 8 := by norm_num
  have hb2 : 255 - b < 2 ^ 8 := by omega
  have hb8 : b < 2 ^ 8 := by omega
  rw [Nat.testBit_ldiff, Nat.testBit_mul_pow_two_add q h255, Nat.testBit_mul_pow_two_add q hb2]
  by_cases h : i < 8
  · have e : 255 - b = 2 ^ 8 - (b + 1) := by omega
    have e2 : (255 : Nat) = 2 ^ 8 - 1 := by norm_num
    rw [if_pos h, if_pos h, e, Nat.testBit_two_pow_sub_succ hb8, e2, Nat.testBit_two_pow_sub_one]
  · have hbi : b < 2 ^ i :=
      lt_of_lt_of_le hb8 (Nat.pow_le_pow_right (by norm_num) (by omega))
    rw [if_neg h, if_neg h, Nat.testBit_lt_two_pow hbi]
    simp

/-- Or-ing a byte into a word whose low eight bits are clear adds it, also
when the word is negative. -/
theorem int_lor_low (x : Int) (b : Nat) (hx : x % 256 = 0) (hb : b < 256) :
    Int.lor x (b : Int) = x + b := by
  cases x with
  | ofNat n =>
    show ((n ||| b : Nat) : Int) = _
    have hn : n % 256 = 0 := by
      have : ((n : Nat) : Int) % 256 = 0 := hx
      omega
    have hq : n = 2 ^ 8 * (n / 256) := by omega
    have := Nat.mul_add_lt_is_or (show b < 2 ^ 8 by omega) (n / 256)
    rw [← hq] at this
    rw [← this]
    simp
  | negSucc m =>
    show Int.negSucc (Nat.ldiff m b) = _
    have hm : m % 256 = 255 := by
      rw [Int.negSucc_eq] at hx
      omega
    have hq : m = 2 ^ 8 * (m / 256) + 255 := by omega
    rw [hq, nat_ldiff_low _ _ hb, Int.negSucc_eq, Int.negSucc_eq]
    push_cast
    omega

theorem wrap32_emod (x : Int) : wrap32 x % 2 ^ 32 = x % 2 ^ 32 := by
  unfold wrap32
  omega

theorem wrap32_of_lt (v : Nat) (h : v < 2 ^ 32) : wrap32 (v : Int) % 2 ^ 32 = v := by
  rw [wrap32_emod]
  have h1 : (v : Int) < 2 ^ 32 := by exact_mod_cast h
  exact Int.emod_eq_of_lt (Int.ofNat_nonneg v) h1


theorem int_shiftLeft_8 (x : Int) : x <<< (8 : Int) = x * 256 := by
  have h := Int.shiftLeft_eq_mul_pow x 8
  have e : ((2 ^ 8 : Nat) : Int) = 256 := by norm_num
  rw [e] at h
  exact h

theorem wrap32_zero : wrap32 ((0 : Nat) : Int) = 0 := by
  unfold wrap32
  omega

theorem bigEndianValue_nil : bigEndianValue [] = 0 := rfl

/-- One step of the packing loop on a word that is the wrapped value `v`. -/
theorem packStep (v b : Nat) (hb : b < 256) :
    Int.lor (wrap32 (wrap32 (v : Int) <<< (8 : Int))) (b : Int)
      = wrap32 ((256 * v + b : Nat) : Int) := by
  rw [int_shiftLeft_8, int_lor_low _ _ (by unfold wrap32; omega) hb]
  unfold wrap32
  push_cast
  omega

theorem bigEndianValue_append_one (bytes : List Byte) (b : Byte) :
    bigEndianValue (bytes ++ [b]) = 256 * bigEndianValue bytes + b.val := by
  simp [bigEndianValue, List.foldl_append]

theorem bigEndianValue_lt (bytes : List Byte) :
    bigEndianValue bytes < 256 ^ bytes.length := by
  induction bytes using List.reverseRecOn with
  | nil => simp [bigEndianValue]
  | append_singleton bs b ih =>
    rw [bigEndianValue_append_one, List.length_append, List.length_singleton, pow_succ]
    have := b.isLt
    omega

/-- The inner loop after `j` passes: the word holds the bytes read so far. -/
theorem packByte_mk (data : List Byte) (word : Int) (byteIndex : Nat) :
    packByte data (word, byteIndex)
      = (Int.lor (wrap32 (word <<< (8 : Int))) ((data.getD byteIndex 0).val : Int),
          byteIndex + 1) :=
  rfl

theorem packWord_nat (data : List Byte) (byteIndex j : Nat) (h : byteIndex + j ≤ data.length) :
    packWord data (j : Int) byteIndex
      = (wrap32 (bigEndianValue ((data.drop byteIndex).take j)), byteIndex + j) := by
  unfold packWord
  induction j with
  | zero =>
    rw [forLoop_zero, List.take_zero, bigEndianValue_nil, wrap32_zero, Nat.add_zero]
  | succ j ih =>
    rw [forLoop_succ, ih (by omega)]
    have hlt : byteIndex + j < data.length := by omega
    have hget : data.getD (byteIndex + j) 0 = data[byteIndex + j] := by
      rw [List.getD_eq_getElem?_getD, List.getElem?_eq_getElem hlt, Option.getD_some]
    have htake : (data.drop byteIndex).take (j + 1)
        = (data.drop byteIndex).take j ++ [data[byteIndex + j]] := by
      rw [List.take_succ, List.getElem?_drop, List.getElem?_eq_getElem hlt, Option.toList_some]
    rw [htake, bigEndianValue_append_one, packByte_mk, hget,
      packStep _ _ (data[byteIndex + j]).isLt, Nat.add_assoc]

/-- The outer loop after `k` passes has recorded the first `k` words. -/
theorem packWords_nat (data : List Byte) (wb k : Nat) (h : k * wb ≤ data.length) :
    forLoop (k : Int)
        (fun _ (s : List Int × Nat) =>
          let w := packWord data (wb : Int) s.2
          (s.1 ++ [w.1], w.2))
        ([], 0)
      = ((List.range k).map
          (fun i => wrap32 (bigEndianValue ((data.drop (i * wb)).take wb))), k * wb) := by
  induction k with
  | zero => rw [forLoop_zero, List.range_zero, List.map_nil, Nat.zero_mul]
  | succ k ih =>
    have hk : k * wb + wb ≤ data.length := by
      have : (k + 1) * wb = k * wb + wb := by ring
      omega
    rw [forLoop_succ, ih (by omega)]
    simp only [packWord_nat data (k * wb) wb hk]
    rw [List.range_succ, List.map_append, List.map_singleton, Nat.succ_mul]

theorem tdiv_natCast (n wb : Nat) : Int.tdiv (n : Int) (wb : Int) = ((n / wb : Nat) : Int) := by
  rw [Int.tdiv_eq_ediv (Int.ofNat_nonneg n) (Int.ofNat_nonneg wb)]
  simp

theorem tmod_natCast (n wb : Nat) : Int.tmod (n : Int) (wb : Int) = ((n % wb : Nat) : Int) := by
  rw [Int.tmod_eq_emod (Int.ofNat_nonneg n) (Int.ofNat_nonneg wb)]
  simp

theorem packWords_eq (data : List Byte) (wb : Nat) :
    packWords data (wb : Int) (Int.tdiv (data.length : Int) (wb : Int))
      = (List.range (data.length / wb)).map
          (fun k => wrap32 (bigEndianValue ((data.drop (k * wb)).take wb))) := by
  unfold packWords
  rw [tdiv_natCast, packWords_nat data wb _ (Nat.div_mul_le_self _ _)]

/-- C3: for every byte buffer of length `N` and every word byte count `wb`
in 1..4 with `N mod wb = 0`, the packing loop yields exactly `N / wb` words,
in buffer order, and word `k` is the big-endian value of the bytes
`k*wb .. k*wb+wb-1` reduced modulo `2^32` into the `int` range; the words
cover the whole buffer, and each is congruent modulo `2^32` to the value of
its `wb` bytes. -/
theorem packWords_bigEndian (data : List Byte) (wb : Nat) (hwb : 1 ≤ wb ∧ wb ≤ 4)
    (hdiv : data.length % wb = 0) :
    packWords data (wb : Int) (Int.tdiv (data.length : Int) (wb : Int))
        = (List.range (data.length / wb)).map
            (fun k => wrap32 (bigEndianValue ((data.drop (k * wb)).take wb))) ∧
      (packWords data (wb : Int) (Int.tdiv (data.length : Int) (wb : Int))).length
        = data.length / wb ∧
      data.length / wb * wb = data.length ∧
      ∀ k, k < data.length / wb →
        ((data.drop (k * wb)).take wb).length = wb ∧
        wrap32 (bigEndianValue ((data.drop (k * wb)).take wb)) % 2 ^ 32
          = (bigEndianValue ((data.drop (k * wb)).take wb) : Int) := by
  refine ⟨packWords_eq data wb, by rw [packWords_eq]; simp,
    Nat.div_mul_cancel (Nat.dvd_of_mod_eq_zero hdiv), ?_⟩
  intro k hk
  have hle : (k + 1) * wb ≤ data.length := by
    calc (k + 1) * wb ≤ (data.length / wb) * wb := Nat.mul_le_mul_right _ hk
      _ ≤ data.length := Nat.div_mul_le_self _ _
  have hlen : ((data.drop (k * wb)).take wb).length = wb := by
    rw [List.length_take, List.length_drop]
    have : (k + 1) * wb = k * wb + wb := by ring
    omega
  refine ⟨hlen, wrap32_of_lt _ ?_⟩
  have h1 := bigEndianValue_lt ((data.drop (k * wb)).take wb)
  rw [hlen] at h1
  have h2 : 256 ^ wb ≤ 256 ^ 4 := Nat.pow_le_pow_right (by norm_num) hwb.2
  have h3 : (256 : Nat) ^ 4 = 2 ^ 32 := by norm_num
  omega

theorem packWords_bigEndian_witness :
    (1 ≤ 2 ∧ 2 ≤ 4) ∧ ([1, 2, 3, 4] : List Byte).length % 2 = 0 ∧
      (inputWordBytes 16 = some 2 ∧ inputWordBytes 8 = some 1) ∧
      packWords [1, 2, 3, 4] 2 2 = [0x0102, 0x0304] ∧
      packWords [1, 2, 3, 4] 1 4 = [0x01, 0x02, 0x03, 0x04] ∧
      packWords [1, 2, 3, 4] ((2 : Nat) : Int) (Int.tdiv (([1, 2, 3, 4] : List Byte).length : Int) ((2 : Nat) : Int))
        = (List.range (([1, 2, 3, 4] : List Byte).length / 2)).map
            (fun k => wrap32 (bigEndianValue ((([1, 2, 3, 4] : List Byte).drop (k * 2)).take 2))) :=
  ⟨by decide, by decide, by decide, by decide, by decide,
    (packWords_bigEndian [1, 2, 3, 4] 2 (by decide) (by decide)).1⟩

/-! ## The big-endian write loop -/

theorem toByte_val (x : Int) : ((toByte x).val : Int) = x % 256 := by
  show (((x % 256).toNat % 256 : Nat) : Int) = x % 256
  omega

theorem forLoop_append_map {α : Type} (k : Nat) (f : Nat → α) (file : List α) :
    forLoop (k : Int) (fun j file => file ++ [f j]) file = file ++ (List.range k).map f := by
  induction k with
  | zero => rw [forLoop_zero, List.range_zero, List.map_nil, List.append_nil]
  | succ k ih =>
    rw [forLoop_succ, ih, List.range_succ, List.map_append, List.map_singleton,
      List.append_assoc]

theorem writeBigEndian_eq (word : Int) (wb : Nat) (file : List Byte) :
    writeBigEndian word (wb : Int) file
      = file ++ (List.range wb).map (bigEndianByte word wb) := by
  unfold writeBigEndian
  rw [forLoop_append_map]
  congr 1
  apply List.map_congr_left
  intro j hj
  have hj2 : j < wb := List.mem_range.mp hj
  have e : ((((wb : Int) - (j : Int) - 1) * 8).toNat) = (wb - j - 1) * 8 := by omega
  rw [e, bigEndianByte]

theorem bigEndianByte_val (word : Int) (wb j : Nat) :
    ((bigEndianByte word wb j).val : Int) = (word / 2 ^ ((wb - j - 1) * 8)) % 256 := by
  rw [bigEndianByte, toByte_val, int_land_255, int_shiftRight_eq]
  omega

theorem bigEndianValue_bytes (word : Int) (wb : Nat) (hwb : 1 ≤ wb ∧ wb ≤ 4) :
    ((bigEndianValue ((List.range wb).map (bigEndianByte word wb)) : Nat) : Int)
      = word % 2 ^ (8 * wb) := by
  obtain ⟨h1, h4⟩ := hwb
  have h0 := bigEndianByte_val word wb 0
  have h1b := bigEndianByte_val word wb 1
  have h2 := bigEndianByte_val word wb 2
  have h3 := bigEndianByte_val word wb 3
  interval_cases wb
  · norm_num at h0
    simp only [List.range_succ, List.range_zero, List.nil_append, List.map_cons, List.map_nil,
      bigEndianValue, List.foldl_cons, List.foldl_nil]
    push_cast
    omega
  · norm_num at h0 h1b
    simp only [List.range_succ, List.range_zero, List.nil_append, List.cons_append,
      List.map_cons, List.map_nil, bigEndianValue, List.foldl_cons, List.foldl_nil]
    push_cast
    omega
  · norm_num at h0 h1b h2
    simp only [List.range_succ, List.range_zero, List.nil_append, List.cons_append,
      List.map_cons, List.map_nil, bigEndianValue, List.foldl_cons, List.foldl_nil]
    push_cast
    omega
  · norm_num at h0 h1b h2 h3
    simp only [List.range_succ, List.range_zero, List.nil_append, List.cons_append,
      List.map_cons, List.map_nil, bigEndianValue, List.foldl_cons, List.foldl_nil]
    push_cast
    omega

/-- C5: for every integer word and every `wb` in 1..4 the raw-output inner
loop emits exactly `wb` bytes, byte `j` being
`(word >> ((wb-j-1)*8)) & 0xFF`, and the emitted bytes read as a big-endian
unsigned number are `word mod 2^(8*wb)`. -/
theorem writeBigEndian_spec (word : Int) (wb : Nat) (hwb : 1 ≤ wb ∧ wb ≤ 4) :
    writeBigEndian word (wb : Int) []
        = (List.range wb).map
            (fun j => toByte (Int.land (Int.shiftRight word ((wb - j - 1) * 8)) 0xFF)) ∧
      (writeBigEndian word (wb : Int) []).length = wb ∧
      ((bigEndianValue (writeBigEndian word (wb : Int) []) : Nat) : Int)
        = word % 2 ^ (8 * wb) := by
  have e := writeBigEndian_eq word wb []
  rw [List.nil_append] at e
  refine ⟨e, by rw [e]; simp, ?_⟩
  rw [e]
  exact bigEndianValue_bytes word wb hwb

theorem writeBigEndian_spec_witness :
    (1 ≤ 2 ∧ 2 ≤ 4) ∧
      (writeBigEndian (-2) ((2 : Nat) : Int) []).length = 2 ∧
      ((bigEndianValue (writeBigEndian (-2) ((2 : Nat) : Int) []) : Nat) : Int)
        = (-2) % 2 ^ (8 * 2) :=
  ⟨by decide, (writeBigEndian_spec (-2) 2 (by decide)).2⟩

/-! ## Word byte count -/

/-- C8: for every width in [1,32] the byte count chosen by the sine raw
branch and the one chosen by the data MIF branch both equal
`ceil(width/8)`, a value in 1..4: 1 up to width 8, 2 up to 16, 3 up to 24,
4 up to 32. -/
theorem wordBytes_eq_ceil (width indeterminate : Int) (hw : 1 ≤ width ∧ width ≤ 32) :
    outputWordBytes width indeterminate = ⌈(width : ℚ) / 8⌉ ∧
      inputWordBytes width = some ⌈(width : ℚ) / 8⌉ ∧
      (1 ≤ ⌈(width : ℚ) / 8⌉ ∧ ⌈(width : ℚ) / 8⌉ ≤ 4) ∧
      (width ≤ 8 → ⌈(width : ℚ) / 8⌉ = 1) ∧
      (8 < width → width ≤ 16 → ⌈(width : ℚ) / 8⌉ = 2) ∧
      (16 < width → width ≤ 24 → ⌈(width : ℚ) / 8⌉ = 3) ∧
      (24 < width → ⌈(width : ℚ) / 8⌉ = 4) := by
  have hc : ⌈(width : ℚ) / 8⌉ = (width + 7) / 8 := by
    rw [Int.ceil_eq_iff]
    have h8 : (8 : ℚ) * (((width + 7) / 8 : Int) : ℚ) = (((8 * ((width + 7) / 8) : Int)) : ℚ) := by
      push_cast; ring
    have hlo : 8 * ((width + 7) / 8) - 8 < width := by omega
    have hhi : width ≤ 8 * ((width + 7) / 8) := by omega
    have hlo2 : (((8 * ((width + 7) / 8) - 8 : Int)) : ℚ) < (width : ℚ) := by exact_mod_cast hlo
    have hhi2 : (width : ℚ) ≤ (((8 * ((width + 7) / 8) : Int)) : ℚ) := by exact_mod_cast hhi
    push_cast at hlo2 hhi2
    constructor
    · linarith
    · linarith
  rw [hc]
  unfold outputWordBytes inputWordBytes
  obtain ⟨h1, h32⟩ := hw
  refine ⟨?_, ?_, ⟨by omega, by omega⟩, fun h => by omega, fun h h2 => by omega,
    fun h h2 => by omega, fun h => by omega⟩
  · split_ifs <;> omega
  · split_ifs <;> (congr 1; omega)

theorem wordBytes_eq_ceil_witness :
    ((1 : Int) ≤ 12 ∧ (12 : Int) ≤ 32) ∧
      outputWordBytes 12 0 = ⌈((12 : Int) : ℚ) / 8⌉ ∧
      inputWordBytes 12 = some ⌈((12 : Int) : ℚ) / 8⌉ :=
  ⟨by decide, (wordBytes_eq_ceil 12 0 (by decide)).1, (wordBytes_eq_ceil 12 0 (by decide)).2.1⟩

/-! ## Data mode and the length of the buffer -/

theorem dataEncode_raw (args : List String) (data : List Byte) (width : Int) :
    dataEncode args data width false = ⟨TextStream.empty, data, none⟩ := by
  simp [dataEncode]

/-- C4, as the code has it: with MIF output, a buffer whose length is not
divisible by the word byte count of the width makes data mode report the
length mismatch and write nothing, neither text nor bytes; with raw output
the buffer is written verbatim and no error is reported, whatever its
length. -/
theorem dataEncode_length_mismatch (args : List String) (data : List Byte) (width wb : Int)
    (hwb : inputWordBytes width = some wb) (hN : (data.length : Int) % wb ≠ 0) :
    dataEncode args data width true
        = ⟨TextStream.empty, [], some (Diag.lengthMismatch data.length wb)⟩ ∧
      dataEncode args data width false = ⟨TextStream.empty, data, none⟩ := by
  refine ⟨?_, dataEncode_raw args data width⟩
  have hpos : 0 ≤ wb := by
    unfold inputWordBytes at hwb
    split_ifs at hwb <;> simp at hwb <;> omega
  have ht : Int.tmod (data.length : Int) wb ≠ 0 := by
    rw [Int.tmod_eq_emod (Int.ofNat_nonneg _) hpos]
    exact hN
  simp [dataEncode, hwb, ht]

theorem dataEncode_length_mismatch_witness :
    inputWordBytes 16 = some 2 ∧ ((([1, 2, 3] : List Byte).length : Nat) : Int) % 2 ≠ 0 ∧
      dataEncode ["romswak", "data", "f", "-width", "16", "-o", "rom.mif", "-mif"]
          [1, 2, 3] 16 true
        = ⟨TextStream.empty, [], some (Diag.lengthMismatch 3 2)⟩ :=
  ⟨by decide, by decide,
    (dataEncode_length_mismatch ["romswak", "data", "f", "-width", "16", "-o", "rom.mif", "-mif"]
      [1, 2, 3] 16 2 (by decide) (by decide)).1⟩

/-- C4 as stated fails for the raw sink: three bytes at width 16 (two bytes
per word) are written out unchanged and no error is reported. -/
theorem dataMode_raw_no_length_check :
    inputWordBytes 16 = some 2 ∧ (3 : Int) % 2 ≠ 0 ∧
      dataMode ["romswak", "data", "f", "-width", "16", "-o", "rom.bin"]
          (fun name => if name = "f" then some [1, 2, 3] else none)
          (fun _ => none) (fun _ => none) 16 false
        = ⟨TextStream.empty, [1, 2, 3], none⟩ := by
  decide

/-! ## Length of the raw output -/

theorem sineRaw_length (intValue : Nat → Int) (wb n : Nat) :
    (forLoop (n : Int) (fun i file => writeBigEndian (intValue i) (wb : Int) file)
      ([] : List Byte)).length = n * wb := by
  induction n with
  | zero => rw [forLoop_zero, List.length_nil, Nat.zero_mul]
  | succ n ih =>
    rw [forLoop_succ, writeBigEndian_eq, List.length_append, ih, List.length_map,
      List.length_range, Nat.succ_mul]

theorem outputWordBytes_nat (width indeterminate : Int) (hw : 1 ≤ width ∧ width ≤ 32) :
    outputWordBytes width indeterminate = (((width + 7) / 8).toNat : Int) ∧
      (1 ≤ ((width + 7) / 8).toNat ∧ ((width + 7) / 8).toNat ≤ 4) := by
  unfold outputWordBytes
  obtain ⟨h1, h32⟩ := hw
  refine ⟨?_, by omega, by omega⟩
  split_ifs <;> omega

/-- C7, as the code has it: a sine-mode run in raw mode with width in
[2,32] and length at least 1 writes exactly `length * wb` bytes, `wb` being
the byte count of the width (1..4); a data-mode run in raw mode writes the
buffer itself, so exactly `N` bytes, which is `wordCount * wb` with
`wordCount = N / wb` when `N` is divisible by `wb`. -/
theorem raw_output_length (args : List String) (width length indeterminate : Int)
    (intValue : Nat → Int) (dataArgs : List String) (data : List Byte) (dataWidth : Int)
    (wb : Nat) (hw : 2 ≤ width ∧ width ≤ 32) (hl : 1 ≤ length) :
    (((sineMode args width length false intValue indeterminate).outputFile.length : Nat) : Int)
        = length * outputWordBytes width indeterminate ∧
      (1 ≤ outputWordBytes width indeterminate ∧ outputWordBytes width indeterminate ≤ 4) ∧
      (dataEncode dataArgs data dataWidth false).outputFile = data ∧
      (data.length % wb = 0 →
        (dataEncode dataArgs data dataWidth false).outputFile.length
          = data.length / wb * wb) := by
  obtain ⟨hwb, hwb1, hwb4⟩ := outputWordBytes_nat width indeterminate ⟨by omega, hw.2⟩
  obtain ⟨n, rfl⟩ := Int.eq_ofNat_of_zero_le (show 0 ≤ length by omega)
  have hsine : (sineMode args width (n : Int) false intValue indeterminate).outputFile
      = forLoop (n : Int)
          (fun i file => writeBigEndian (intValue i) (outputWordBytes width indeterminate) file)
          [] := by
    have h1 : ¬ width < 2 := by omega
    have h2 : ¬ ((n : Int) = 0) := by omega
    simp [sineMode, h1, h2]
  refine ⟨?_, ⟨by omega, by omega⟩, by rw [dataEncode_raw], ?_⟩
  · rw [hsine, hwb, sineRaw_length]
    push_cast
    rfl
  · intro hdiv
    rw [dataEncode_raw]
    exact (Nat.div_mul_cancel (Nat.dvd_of_mod_eq_zero hdiv)).symm

theorem raw_output_length_witness :
    ((2 : Int) ≤ 12 ∧ (12 : Int) ≤ 32) ∧ (1 : Int) ≤ 3 ∧
      (((sineMode ["romswak", "sine"] 12 3 false (fun i => (i : Int) - 1) 0).outputFile.length
          : Nat) : Int) = 3 * outputWordBytes 12 0 ∧
      (dataEncode ["romswak", "data"] [1, 2, 3, 4] 16 false).outputFile = [1, 2, 3, 4] :=
  ⟨by decide, by decide,
    (raw_output_length ["romswak", "sine"] 12 3 0 (fun i => (i : Int) - 1)
      ["romswak", "data"] [1, 2, 3, 4] 16 2 (by decide) (by decide)).1,
    (raw_output_length ["romswak", "sine"] 12 3 0 (fun i => (i : Int) - 1)
      ["romswak", "data"] [1, 2, 3, 4] 16 2 (by decide) (by decide)).2.2.1⟩

/-- C7 as stated fails in data mode: with three bytes in the buffer and two
bytes per word (width 16) the raw run writes three bytes, while
`wordCount * wb` is `(3 / 2) * 2 = 2`. -/
theorem dataEncode_raw_length_counterexample :
    inputWordBytes 16 = some 2 ∧
      (dataEncode ["romswak", "data", "f", "-width", "16", "-o", "rom.bin"]
          [1, 2, 3] 16 false).outputFile.length = 3 ∧
      Int.tdiv ((([1, 2, 3] : List Byte).length : Nat) : Int) 2 * 2 = 2 ∧
      ((dataEncode ["romswak", "data", "f", "-width", "16", "-o", "rom.bin"]
          [1, 2, 3] 16 false).outputFile.length : Int)
        ≠ Int.tdiv ((([1, 2, 3] : List Byte).length : Nat) : Int) 2 * 2 := by
  decide

/-! ## The MIF document -/

theorem echoArguments_false (rest : List String) (out : TextStream) :
    echoArguments rest false out = ⟨out.lines, out.cur ++ echoText rest⟩ := by
  induction rest generalizing out with
  | nil => simp [echoArguments, echoText]
  | cons arg rest ih =>
    rw [echoArguments, if_neg (by simp), ih]
    simp [TextStream.put, echoText, String.append_assoc]

theorem echoArguments_true (arg0 : String) (rest : List String) (out : TextStream) :
    echoArguments (arg0 :: rest) true out
      = ⟨out.lines, out.cur ++ "romswak " ++ echoText rest⟩ := by
  rw [echoArguments, if_pos rfl, echoArguments_false]
  rfl

theorem writeMifHeader_eq (arg0 : String) (rest : List String) (wordCount wordWidth : Int) :
    writeMifHeader (arg0 :: rest) TextStream.empty wordCount wordWidth
      = ⟨mifHeaderLines (arg0 :: rest) wordCount wordWidth, ""⟩ := by
  simp only [writeMifHeader, echoArguments_true]
  simp [TextStream.put, TextStream.endl, TextStream.empty, mifHeaderLines, String.append_assoc]

theorem dataLine_mk (data : List Byte) (wb width : Int) (i : Nat) (ls : List String)
    (byteIndex : Nat) :
    dataLine data wb width i (⟨ls, ""⟩, byteIndex)
      = (⟨ls ++ [dataLineText width i (packWord data wb byteIndex).1], ""⟩,
          (packWord data wb byteIndex).2) := by
  simp [dataLine, dataLineText, TextStream.put, TextStream.endl]

/-- The line loop of data mode after `k` passes. -/
theorem dataLines_nat (data : List Byte) (wb : Nat) (width : Int) (ls : List String) (k : Nat)
    (h : k * wb ≤ data.length) :
    forLoop (k : Int) (fun i s => dataLine data (wb : Int) width i s) (⟨ls, ""⟩, 0)
      = (⟨ls ++ (List.range k).map (fun i =>
            dataLineText width i (wrap32 (bigEndianValue ((data.drop (i * wb)).take wb)))), ""⟩,
          k * wb) := by
  induction k with
  | zero => rw [forLoop_zero, List.range_zero, List.map_nil, List.append_nil, Nat.zero_mul]
  | succ k ih =>
    have hk : k * wb + wb ≤ data.length := by
      have : (k + 1) * wb = k * wb + wb := by ring
      omega
    rw [forLoop_succ, ih (by omega), dataLine_mk, packWord_nat data (k * wb) wb hk,
      List.range_succ, List.map_append, List.map_singleton, List.append_assoc, Nat.succ_mul]

theorem mapIdx_packWords (data : List Byte) (wb : Nat) (width : Int) :
    (packWords data (wb : Int) (Int.tdiv (data.length : Int) (wb : Int))).mapIdx
        (fun k w => dataLineText width k w)
      = (List.range (data.length / wb)).map (fun i =>
          dataLineText width i (wrap32 (bigEndianValue ((data.drop (i * wb)).take wb)))) := by
  rw [packWords_eq]
  apply List.ext_getElem
  · simp
  · intro i h1 h2
    simp

theorem inputWordBytes_nat (width wb : Int) (hwb : inputWordBytes width = some wb) :
    ∃ n : Nat, wb = (n : Int) ∧ 1 ≤ n ∧ n ≤ 4 := by
  unfold inputWordBytes at hwb
  split_ifs at hwb <;> simp at hwb
  · exact ⟨1, by omega, by omega, by omega⟩
  · exact ⟨2, by omega, by omega, by omega⟩
  · exact ⟨3, by omega, by omega, by omega⟩
  · exact ⟨4, by omega, by omega, by omega⟩

/-- The MIF branch of data mode on a buffer whose length is divisible by
the word byte count: header, one line per packed word, footer. -/
theorem dataEncode_mif_eq (arg0 : String) (rest : List String) (data : List Byte)
    (width : Int) (wb : Nat) (hwb : inputWordBytes width = some (wb : Int))
    (hdiv : data.length % wb = 0) :
    dataEncode (arg0 :: rest) data width true
      = ⟨⟨mifHeaderLines (arg0 :: rest) ((data.length / wb : Nat) : Int) width
            ++ (packWords data (wb : Int) (Int.tdiv (data.length : Int) (wb : Int))).mapIdx
                (fun k w => dataLineText width k w)
            ++ ["END;"], ""⟩, [], none⟩ := by
  have ht : Int.tmod (data.length : Int) (wb : Int) = 0 := by
    rw [tmod_natCast, hdiv]; rfl
  unfold dataEncode
  rw [if_pos rfl]
  simp only [hwb, ht, ne_eq, not_true_eq_false, if_false]
  rw [writeMifHeader_eq, tdiv_natCast, dataLines_nat _ _ _ _ _ (Nat.div_mul_le_self _ _),
    ← tdiv_natCast, mapIdx_packWords, tdiv_natCast]
  simp [writeMifFooter, TextStream.put, TextStream.endl]

/-- C9: in data mode with MIF output, for every argument list, width and
buffer that passes the checks, the text written is exactly the comment line
`-- romswak ` followed by each argument after the first with a space after
it, a blank line, then `DEPTH = n;`, `WIDTH = width;`,
`ADDRESS_RADIX = DEC;`, `DATA_RADIX = BIN;`, a blank line, `CONTENT`,
`BEGIN`, then for `k = 0 .. n-1` the line `k : intToBin(w_k, width);` with
the address in decimal, the words in sequence order, and finally `END;`;
every line is closed and nothing else is written. -/
theorem dataEncode_mif_document (arg0 : String) (rest : List String) (data : List Byte)
    (width wb : Int) (hwb : inputWordBytes width = some wb)
    (hdiv : (data.length : Int) % wb = 0) :
    dataEncode (arg0 :: rest) data width true
      = ⟨⟨["-- romswak " ++ echoText rest,
            "",
            "DEPTH = " ++ toString (packWords data wb (Int.tdiv data.length wb)).length ++ ";",
            "WIDTH = " ++ toString width ++ ";",
            "ADDRESS_RADIX = DEC;",
            "DATA_RADIX = BIN;",
            "",
            "CONTENT",
            "BEGIN"]
          ++ (packWords data wb (Int.tdiv data.length wb)).mapIdx
              (fun k w => toString k ++ " : " ++ intToBin w width ++ ";")
          ++ ["END;"], ""⟩, [], none⟩ := by
  obtain ⟨n, rfl, h1, h4⟩ := inputWordBytes_nat width wb hwb
  have hd : data.length % n = 0 := by exact_mod_cast hdiv
  rw [dataEncode_mif_eq arg0 rest data width n hwb hd, packWords_eq]
  simp [mifHeaderLines, dataLineText]
  rfl

theorem dataEncode_mif_document_witness :
    inputWordBytes 16 = some 2 ∧ ((([1, 2, 3, 4] : List Byte).length : Nat) : Int) % 2 = 0 ∧
      (dataEncode ("romswak" :: ["data", "f", "-width", "16", "-o", "rom.mif", "-mif"])
          [1, 2, 3, 4] 16 true).output.lines
        = ["-- romswak data f -width 16 -o rom.mif -mif ", "", "DEPTH = 2;", "WIDTH = 16;",
           "ADDRESS_RADIX = DEC;", "DATA_RADIX = BIN;", "", "CONTENT", "BEGIN",
           "0 : 0000000100000010;", "1 : 0000001100000100;", "END;"] := by
  refine ⟨by decide, by decide, ?_⟩
  rw [dataEncode_mif_document "romswak" ["data", "f", "-width", "16", "-o", "rom.mif", "-mif"]
    [1, 2, 3, 4] 16 2 (by decide) (by decide)]
  decide

/-! ## Header depth and the number of data lines -/

theorem sineLine_mk (width : Int) (i : Nat) (value : Int) (ls : List String) :
    sineLine width i value ⟨ls, ""⟩ = ⟨ls ++ [sineLineText width i value], ""⟩ := by
  simp [sineLine, sineLineText, TextStream.put, TextStream.endl]

theorem sineLines_nat (width : Int) (intValue : Nat → Int) (ls : List String) (n : Nat) :
    forLoop (n : Int) (fun i out => sineLine width i (intValue i) out) ⟨ls, ""⟩
      = ⟨ls ++ (List.range n).map (fun i => sineLineText width i (intValue i)), ""⟩ := by
  induction n with
  | zero => rw [forLoop_zero, List.range_zero, List.map_nil, List.append_nil]
  | succ n ih =>
    rw [forLoop_succ, ih, sineLine_mk, List.range_succ, List.map_append, List.map_singleton,
      List.append_assoc]

/-- The MIF branch of sine mode: header, a blank line, one line per index,
a blank line, footer. -/
theorem sineMode_mif_eq (arg0 : String) (rest : List String) (width : Int) (n : Nat)
    (intValue : Nat → Int) (indeterminate : Int) (hw : 2 ≤ width) (hn : 1 ≤ n) :
    sineMode (arg0 :: rest) width (n : Int) true intValue indeterminate
      = ⟨⟨mifHeaderLines (arg0 :: rest) (n : Int) width
            ++ ([""] ++ (List.range n).map (fun i => sineLineText width i (intValue i)) ++ [""])
            ++ ["END;"], ""⟩, [], none⟩ := by
  have h1 : ¬ width < 2 := by omega
  have h2 : ¬ ((n : Int) = 0) := by omega
  unfold sineMode
  rw [if_neg h1, if_neg h2, if_pos rfl]
  simp only [writeMifHeader_eq, TextStream.endl]
  rw [sineLines_nat]
  simp [writeMifFooter, TextStream.put, TextStream.endl]

theorem string_ne_of_mem (s t : String) (c : Char) (hs : c ∈ s.data) (ht : c ∉ t.data) :
    s ≠ t := by
  intro h
  rw [h] at hs
  exact ht hs

theorem dataLineText_space (width : Int) (k : Nat) (word : Int) :
    ' ' ∈ (dataLineText width k word).data := by
  simp [dataLineText, String.data_append]

theorem sineLineText_space (width : Int) (k : Nat) (value : Int) :
    ' ' ∈ (sineLineText width k value).data := by
  simp [sineLineText, String.data_append]

theorem string_ne_of_head (s t u : String) (c d : Char) (l m : List Char)
    (hs : s.data = c :: l) (hu : u.data = d :: m) (h : c ≠ d) : s ++ t ≠ u := by
  intro e
  have := congrArg String.data e
  rw [String.data_append, hs, hu] at this
  simp at this
  exact h this.1

theorem mifBody_header (arg0 : String) (rest : List String) (wordCount wordWidth : Int)
    (body : List String) (hbody : ∀ l ∈ body, l ≠ "END;") :
    mifBody (mifHeaderLines (arg0 :: rest) wordCount wordWidth ++ body ++ ["END;"]) = body := by
  have c1 : ("-- romswak " ++ echoText rest != "BEGIN") = true := by
    simpa using string_ne_of_head "-- romswak " (echoText rest) "BEGIN" '-' 'B' _ _ rfl rfl
      (by decide)
  have c3 : ("DEPTH = " ++ toString wordCount ++ ";" != "BEGIN") = true := by
    rw [String.append_assoc]
    simpa using string_ne_of_head "DEPTH = " (toString wordCount ++ ";") "BEGIN" 'D' 'B' _ _
      rfl rfl (by decide)
  have c4 : ("WIDTH = " ++ toString wordWidth ++ ";" != "BEGIN") = true := by
    rw [String.append_assoc]
    simpa using string_ne_of_head "WIDTH = " (toString wordWidth ++ ";") "BEGIN" 'W' 'B' _ _
      rfl rfl (by decide)
  have ht : List.takeWhile (fun l => l != "END;") (body ++ ["END;"]) = body := by
    induction body with
    | nil => rfl
    | cons l ls ih =>
      have hl : (l != "END;") = true := by simpa using hbody l (List.mem_cons_self _ _)
      rw [List.cons_append, List.takeWhile_cons, hl, if_pos rfl,
        ih (fun x hx => hbody x (List.mem_cons_of_mem _ hx))]
  have d1 : ("" != "BEGIN") = true := by decide
  have d2 : ("ADDRESS_RADIX = DEC;" != "BEGIN") = true := by decide
  have d3 : ("DATA_RADIX = BIN;" != "BEGIN") = true := by decide
  have d4 : ("CONTENT" != "BEGIN") = true := by decide
  have d5 : ("BEGIN" != "BEGIN") = false := by decide
  unfold mifBody mifHeaderLines
  simp only [List.tail_cons, List.cons_append, List.nil_append, List.dropWhile_cons, c1, c3, c4,
    d1, d2, d3, d4, d5, if_true, if_false, Bool.false_eq_true, List.drop_one, List.tail_cons, ht]

theorem mifDepthLine_header (arg0 : String) (rest : List String) (wordCount wordWidth : Int)
    (more : List String) :
    mifDepthLine (mifHeaderLines (arg0 :: rest) wordCount wordWidth ++ more)
      = some ("DEPTH = " ++ toString wordCount ++ ";") := by
  simp [mifDepthLine, mifHeaderLines, List.find?, String.data_append, List.isPrefixOf]

theorem filter_nonblank (ls : List String) (h : ∀ l ∈ ls, l ≠ "") :
    ([""] ++ ls ++ [""]).filter (fun l => l != "") = ls := by
  rw [List.filter_append, List.filter_append]
  have h1 : ls.filter (fun l => l != "") = ls := by
    rw [List.filter_eq_self]
    intro a ha
    simpa using h a ha
  rw [h1]
  have h2 : List.filter (fun l => l != "") [""] = [] := by decide
  rw [h2, List.nil_append, List.append_nil]

theorem no_space_in_end : ' ' ∉ "END;".data := by decide

theorem no_space_in_blank : ' ' ∉ "".data := by decide

theorem sine_body_ne_end (width : Int) (intValue : Nat → Int) (n : Nat) :
    ∀ l ∈ [""] ++ (List.range n).map (fun i => sineLineText width i (intValue i)) ++ [""],
      l ≠ "END;" := by
  intro l hl
  simp only [List.mem_append, List.mem_singleton, List.mem_map] at hl
  rcases hl with (h | ⟨i, _, h⟩) | h
  · rw [h]; decide
  · rw [← h]
    exact string_ne_of_mem _ _ ' ' (sineLineText_space _ _ _) no_space_in_end
  · rw [h]; decide

theorem sine_lines_nonblank (width : Int) (intValue : Nat → Int) (n : Nat) :
    ∀ l ∈ (List.range n).map (fun i => sineLineText width i (intValue i)), l ≠ "" := by
  intro l hl
  obtain ⟨i, _, h⟩ := List.mem_map.mp hl
  rw [← h]
  exact string_ne_of_mem _ _ ' ' (sineLineText_space _ _ _) no_space_in_blank

theorem data_lines_space (width : Int) (words : List Int) :
    ∀ l ∈ words.mapIdx (fun k w => dataLineText width k w), ' ' ∈ l.data := by
  intro l hl
  obtain ⟨i, hi, h⟩ := List.getElem_of_mem hl
  rw [List.getElem_mapIdx] at h
  rw [← h]
  exact dataLineText_space _ _ _

theorem filter_nonblank_self (ls : List String) (h : ∀ l ∈ ls, l ≠ "") :
    ls.filter (fun l => l != "") = ls := by
  rw [List.filter_eq_self]
  intro a ha
  simpa using h a ha

/-- C6: the `DEPTH` declaration of the header carries the number of data
lines written between `BEGIN` and `END;`: in sine mode, for every accepted
width and every length of at least 1, that number is `length`; in data mode,
for every buffer whose length `N` is divisible by the word byte count `wb`,
it is `N / wb`. -/
theorem mif_depth_counts_lines (arg0 : String) (rest : List String)
    (width length indeterminate : Int) (intValue : Nat → Int)
    (dataArg0 : String) (dataRest : List String) (data : List Byte) (dataWidth wb : Int)
    (hw : 2 ≤ width) (hl : 1 ≤ length)
    (hwb : inputWordBytes dataWidth = some wb) (hdiv : (data.length : Int) % wb = 0) :
    mifDepthLine (sineMode (arg0 :: rest) width length true intValue indeterminate).output.lines
        = some ("DEPTH = " ++ toString (mifDataLines
            (sineMode (arg0 :: rest) width length true intValue indeterminate).output.lines).length
            ++ ";") ∧
      ((mifDataLines
          (sineMode (arg0 :: rest) width length true intValue indeterminate).output.lines).length
        : Int) = length ∧
      mifDepthLine (dataEncode (dataArg0 :: dataRest) data dataWidth true).output.lines
        = some ("DEPTH = " ++ toString (mifDataLines
            (dataEncode (dataArg0 :: dataRest) data dataWidth true).output.lines).length
            ++ ";") ∧
      ((mifDataLines
          (dataEncode (dataArg0 :: dataRest) data dataWidth true).output.lines).length : Int)
        = (data.length : Int) / wb := by
  obtain ⟨n, rfl⟩ := Int.eq_ofNat_of_zero_le (show 0 ≤ length by omega)
  obtain ⟨m, rfl, hm1, hm4⟩ := inputWordBytes_nat dataWidth wb hwb
  have hd : data.length % m = 0 := by exact_mod_cast hdiv
  have hs : mifDataLines
      (sineMode (arg0 :: rest) width (n : Int) true intValue indeterminate).output.lines
      = (List.range n).map (fun i => sineLineText width i (intValue i)) := by
    rw [sineMode_mif_eq arg0 rest width n intValue indeterminate hw (by omega)]
    unfold mifDataLines
    rw [mifBody_header _ _ _ _ _ (sine_body_ne_end width intValue n),
      filter_nonblank _ (sine_lines_nonblank width intValue n)]
  have hdl : mifDataLines (dataEncode (dataArg0 :: dataRest) data (dataWidth) true).output.lines
      = (packWords data (m : Int) (Int.tdiv (data.length : Int) (m : Int))).mapIdx
          (fun k w => dataLineText dataWidth k w) := by
    rw [dataEncode_mif_eq dataArg0 dataRest data dataWidth m hwb hd]
    unfold mifDataLines
    rw [mifBody_header _ _ _ _ _ (fun l hl =>
        string_ne_of_mem _ _ ' ' (data_lines_space _ _ l hl) no_space_in_end),
      filter_nonblank_self _ (fun l hl =>
        string_ne_of_mem _ _ ' ' (data_lines_space _ _ l hl) no_space_in_blank)]
  refine ⟨?_, ?_, ?_, ?_⟩
  · rw [hs, sineMode_mif_eq arg0 rest width n intValue indeterminate hw (by omega)]
    simp only [List.append_assoc]
    rw [mifDepthLine_header, List.length_map, List.length_range]
    rfl
  · rw [hs, List.length_map, List.length_range]
  · rw [hdl, dataEncode_mif_eq dataArg0 dataRest data dataWidth m hwb hd]
    simp only [List.append_assoc]
    rw [mifDepthLine_header, List.length_mapIdx, packWords_eq, List.length_map,
      List.length_range]
    rfl
  · rw [hdl, List.length_mapIdx, packWords_eq, List.length_map, List.length_range]
    simp

theorem mif_depth_counts_lines_witness :
    (2 : Int) ≤ 8 ∧ (1 : Int) ≤ 4 ∧ inputWordBytes 16 = some 2 ∧
      ((([1, 2, 3, 4] : List Byte).length : Nat) : Int) % 2 = 0 ∧
      ((mifDataLines (sineMode ("romswak" :: ["sine", "-mif"]) 8 4 true
          (fun i => (i : Int) + 1) 0).output.lines).length : Int) = 4 ∧
      ((mifDataLines (dataEncode ("romswak" :: ["data", "f", "-mif"]) [1, 2, 3, 4] 16
          true).output.lines).length : Int) = ((([1, 2, 3, 4] : List Byte).length : Nat) : Int) / 2 :=
  ⟨by decide, by decide, by decide, by decide,
    (mif_depth_counts_lines "romswak" ["sine", "-mif"] 8 4 0 (fun i => (i : Int) + 1)
      "romswak" ["data", "f", "-mif"] [1, 2, 3, 4] 16 2
      (by decide) (by decide) (by decide) (by decide)).2.1,
    (mif_depth_counts_lines "romswak" ["sine", "-mif"] 8 4 0 (fun i => (i : Int) + 1)
      "romswak" ["data", "f", "-mif"] [1, 2, 3, 4] 16 2
      (by decide) (by decide) (by decide) (by decide)).2.2.2⟩

/-! ## Concatenation of the input segments -/

theorem seekRead_rest (file : List Byte) (offset : Int) :
    seekRead file offset ((file.length : Int) - offset) = file.drop offset.toNat := by
  unfold seekRead
  apply List.take_of_length_le
  rw [List.length_drop]
  omega

/-- One pass of the segment loop on an argument that names `seg` reads the
slice of `seg`. -/
theorem readSegment_describes (fs : String → Option (List Byte))
    (toInt toLongLong : String → Option Int) (arg : String) (seg : Segment)
    (h : describes fs toInt toLongLong arg seg = true) :
    readSegment fs toInt toLongLong arg = Except.ok seg.slice := by
  obtain ⟨file, offset, length⟩ := seg
  simp only [describes, Bool.and_eq_true, beq_iff_eq] at h
  obtain ⟨⟨hfile, hoff⟩, hlen⟩ := h
  unfold readSegment
  simp only [hfile]
  by_cases h1 : (splitComma arg.data).length > 1
  · rw [if_pos h1] at hoff
    simp only [Bool.and_eq_true, beq_iff_eq] at hoff
    obtain ⟨o, rfl⟩ := Option.isSome_iff_exists.mp hoff.1
    simp only [if_pos h1, hoff.2]
    by_cases h3 : (splitComma arg.data).length < 3
    · rw [if_pos h3] at hlen
      simp only [beq_iff_eq] at hlen
      subst hlen
      simp only [if_pos h3, Segment.slice, Option.getD_some, seekRead_rest]
    · rw [if_neg h3] at hlen
      simp only [Bool.and_eq_true, beq_iff_eq] at hlen
      obtain ⟨l, rfl⟩ := Option.isSome_iff_exists.mp hlen.1
      simp only [if_neg h3, hlen.2, Segment.slice, Option.getD_some, seekRead]
  · rw [if_neg h1] at hoff
    simp only [beq_iff_eq] at hoff
    subst hoff
    have h3 : (splitComma arg.data).length < 3 := by omega
    rw [if_pos h3] at hlen
    simp only [beq_iff_eq] at hlen
    subst hlen
    simp only [if_neg h1, if_pos h3, Segment.slice, Option.getD_none, seekRead_rest]

theorem readSegments_append (fs : String → Option (List Byte))
    (toInt toLongLong : String → Option Int) (pairs : List (String × Segment))
    (stop : String) (more : List String) (data : List Byte)
    (hstop : startsWithDash stop = true)
    (hpairs : ∀ p ∈ pairs,
      startsWithDash p.1 = false ∧ describes fs toInt toLongLong p.1 p.2 = true) :
    readSegments fs toInt toLongLong (pairs.map Prod.fst ++ stop :: more) data
      = Except.ok (data ++ concatSegments (pairs.map Prod.snd)) := by
  induction pairs generalizing data with
  | nil => simp [readSegments, hstop, concatSegments]
  | cons p ps ih =>
    obtain ⟨hd, hs⟩ := hpairs p (List.mem_cons_self _ _)
    rw [List.map_cons, List.cons_append, readSegments, hd]
    simp only [Bool.false_eq_true, if_false, readSegment_describes _ _ _ _ _ hs]
    rw [ih _ (fun q hq => hpairs q (List.mem_cons_of_mem _ hq))]
    simp [concatSegments]

/-- C10: with every input file a byte list, the buffer data mode builds from
the segment arguments (those before the first argument that starts with
`-`) is the concatenation, in argument order, of the slices of the segments:
the bytes from the offset on, at most `length` of them, a missing offset
being 0 and a missing length the rest of the file after the offset; in raw
mode that buffer is what the run writes. -/
theorem readSegments_concat (fs : String → Option (List Byte))
    (toInt toLongLong : String → Option Int) (pairs : List (String × Segment))
    (stop : String) (more : List String) (arg0 mode : String) (width : Int)
    (hstop : startsWithDash stop = true)
    (hpairs : ∀ p ∈ pairs,
      startsWithDash p.1 = false ∧ describes fs toInt toLongLong p.1 p.2 = true) :
    readSegments fs toInt toLongLong (pairs.map Prod.fst ++ stop :: more) []
        = Except.ok (concatSegments (pairs.map Prod.snd)) ∧
      dataMode (arg0 :: mode :: (pairs.map Prod.fst ++ stop :: more)) fs toInt toLongLong
          width false
        = ⟨TextStream.empty, concatSegments (pairs.map Prod.snd), none⟩ := by
  have h := readSegments_append fs toInt toLongLong pairs stop more [] hstop hpairs
  rw [List.nil_append] at h
  refine ⟨h, ?_⟩
  unfold dataMode
  simp only [List.drop_succ_cons, List.drop_zero, h, dataEncode_raw]

theorem readSegments_concat_witness :
    startsWithDash "-width" = true ∧
      (∀ p ∈ [("a.bin", (⟨[65, 66], none, none⟩ : Segment)),
              ("b.bin", (⟨[67, 68], none, none⟩ : Segment))],
        startsWithDash p.1 = false ∧
          describes
            (fun name => if name = "a.bin" then some [65, 66]
              else if name = "b.bin" then some [67, 68] else none)
            (fun _ => none) (fun _ => none) p.1 p.2 = true) ∧
      concatSegments [⟨[65, 66], none, none⟩, ⟨[67, 68], none, none⟩] = [65, 66, 67, 68] ∧
      readSegments
          (fun name => if name = "a.bin" then some [65, 66]
            else if name = "b.bin" then some [67, 68] else none)
          (fun _ => none) (fun _ => none)
          (["a.bin", "b.bin"] ++ "-width" :: ["8", "-o", "rom.bin"]) []
        = Except.ok (concatSegments [⟨[65, 66], none, none⟩, ⟨[67, 68], none, none⟩]) :=
  ⟨by decide, by decide, by decide,
    (readSegments_concat
      (fun name => if name = "a.bin" then some [65, 66]
        else if name = "b.bin" then some [67, 68] else none)
      (fun _ => none) (fun _ => none)
      [("a.bin", ⟨[65, 66], none, none⟩), ("b.bin", ⟨[67, 68], none, none⟩)]
      "-width" ["8", "-o", "rom.bin"] "romswak" "data" 8 (by decide) (by decide)).1⟩

/-! ## The scale of sine mode -/

theorem int_shiftLeft_one (n : Nat) : (1 : Int) <<< (n : Int) = 2 ^ n := by
  have h := Int.shiftLeft_eq_mul_pow 1 n
  rw [one_mul] at h
  rw [h]
  push_cast
  rfl

theorem sineScale_no_amplitude (width undefinedShift : Int) :
    sineScale width 0 undefinedShift
      = wrap32 ((if 0 ≤ width ∧ width < 32 then wrap32 ((1 : Int) <<< width)
          else undefinedShift) - 2) := by
  unfold sineScale
  simp only [if_true]

/-- For the widths 2..31 the default scale is `2^width - 2`, in `int`
arithmetic that wraps. -/
theorem sineScale_default (width undefinedShift : Int) (hw : 2 ≤ width ∧ width ≤ 31) :
    sineScale width 0 undefinedShift = 2 ^ width.toNat - 2 := by
  obtain ⟨h2, h31⟩ := hw
  obtain ⟨n, rfl⟩ := Int.eq_ofNat_of_zero_le (show 0 ≤ width by omega)
  have hn2 : 2 ≤ n := by omega
  have hn31 : n ≤ 31 := by omega
  have hlo : (2 : Int) ^ 2 ≤ 2 ^ n := pow_le_pow_right₀ (by norm_num) hn2
  have hhi : (2 : Int) ^ n ≤ 2 ^ 31 := pow_le_pow_right₀ (by norm_num) hn31
  have hc : 0 ≤ (n : Int) ∧ (n : Int) < 32 := ⟨by omega, by omega⟩
  rw [sineScale_no_amplitude, if_pos hc, int_shiftLeft_one, Int.toNat_ofNat]
  generalize (2 : Int) ^ n = p at hlo hhi
  unfold wrap32
  omega

/-- With a non-zero amplitude the scale is twice the amplitude, wrapped to
32 bits; it is exactly twice the amplitude when that fits an `int`. -/
theorem sineScale_amplitude (width amplitude undefinedShift : Int) (ha : amplitude ≠ 0) :
    sineScale width amplitude undefinedShift = wrap32 (amplitude * 2) ∧
      (-2 ^ 30 ≤ amplitude → amplitude < 2 ^ 30 →
        sineScale width amplitude undefinedShift = 2 * amplitude) := by
  unfold sineScale
  rw [if_neg ha]
  refine ⟨rfl, fun h1 h2 => ?_⟩
  unfold wrap32
  omega

/-- C12, at the width the code gets wrong: for width 32 and no amplitude the
scale the code computes is never `2^32 - 2`, whatever the out-of-range shift
`1 << 32` yields; the value is an `int` and lies below `2^31`. -/
theorem sineScale_width32 (undefinedShift : Int) :
    sineScale 32 0 undefinedShift ≠ 2 ^ 32 - 2 ∧
      sineScale 32 0 undefinedShift < 2 ^ 31 ∧
      sineScale 32 0 1 = -1 ∧ sineScale 32 0 0 = -2 := by
  have hc : ¬ (0 ≤ (32 : Int) ∧ (32 : Int) < 32) := by omega
  have h : sineScale 32 0 undefinedShift = wrap32 (undefinedShift - 2) := by
    rw [sineScale_no_amplitude, if_neg hc]
  have h1 : sineScale 32 0 1 = -1 := by decide
  have h0 : sineScale 32 0 0 = -2 := by decide
  refine ⟨?_, ?_, h1, h0⟩
  · rw [h]; unfold wrap32; omega
  · rw [h]; unfold wrap32; omega

/-! ## Validation of width and length -/

/-- C13: data mode with MIF output rejects every width above 32: whatever
the buffer, it reports the width error and writes no header, no data line
and no footer (and no byte); at the level of the whole run nothing is
written either, and the run ends with a diagnostic. -/
theorem dataEncode_rejects_wide (args : List String) (data : List Byte) (width : Int)
    (fs : String → Option (List Byte)) (toInt toLongLong : String → Option Int)
    (hw : 32 < width) :
    dataEncode args data width true = ⟨TextStream.empty, [], some Diag.widthTooWide⟩ ∧
      (dataMode args fs toInt toLongLong width true).output = TextStream.empty ∧
      (dataMode args fs toInt toLongLong width true).outputFile = [] ∧
      (dataMode args fs toInt toLongLong width true).error ≠ none := by
  have hnone : inputWordBytes width = none := by
    unfold inputWordBytes
    rw [if_neg (by omega), if_neg (by omega), if_neg (by omega), if_neg (by omega)]
  have h1 : dataEncode args data width true
      = ⟨TextStream.empty, [], some Diag.widthTooWide⟩ := by
    unfold dataEncode
    rw [if_pos rfl]
    simp only [hnone]
  have hall : ∀ d : List Byte, dataEncode args d width true
      = ⟨TextStream.empty, [], some Diag.widthTooWide⟩ := by
    intro d
    unfold dataEncode
    rw [if_pos rfl]
    simp only [hnone]
  have hw0 : ¬ width = 0 := by omega
  refine ⟨h1, ?_, ?_, ?_⟩ <;>
  · unfold dataMode
    cases readSegments fs toInt toLongLong (List.drop 2 args) [] with
    | error d => simp
    | ok d => simp [hw0, hall d]

theorem dataEncode_rejects_wide_witness :
    (32 : Int) < 33 ∧
      dataEncode ["romswak", "data", "f", "-width", "33", "-o", "rom.mif", "-mif"]
          [1, 2, 3, 4] 33 true
        = ⟨TextStream.empty, [], some Diag.widthTooWide⟩ :=
  ⟨by decide,
    (dataEncode_rejects_wide ["romswak", "data", "f", "-width", "33", "-o", "rom.mif", "-mif"]
      [1, 2, 3, 4] 33 (fun _ => none) (fun _ => none) (fun _ => none) (by decide)).1⟩

theorem sineMode_rejects_low (args : List String) (width length indeterminate : Int)
    (mif : Bool) (intValue : Nat → Int) (hw : width < 2) :
    sineMode args width length mif intValue indeterminate
      = ⟨TextStream.empty, [], some Diag.sineNoWidth⟩ := by
  unfold sineMode
  rw [if_pos hw]

theorem sineMode_raw_eq (args : List String) (width indeterminate : Int) (n : Nat)
    (intValue : Nat → Int) (hw : 2 ≤ width) (hn : 1 ≤ n) :
    sineMode args width (n : Int) false intValue indeterminate
      = ⟨TextStream.empty,
          forLoop (n : Int)
            (fun i file => writeBigEndian (intValue i) (outputWordBytes width indeterminate) file)
            [],
          none⟩ := by
  have h1 : ¬ width < 2 := by omega
  have h2 : ¬ ((n : Int) = 0) := by omega
  simp [sineMode, h1, h2]

theorem sineMode_mif_dataLines (arg0 : String) (rest : List String) (width : Int) (n : Nat)
    (intValue : Nat → Int) (indeterminate : Int) (hw : 2 ≤ width) (hn : 1 ≤ n) :
    mifDataLines (sineMode (arg0 :: rest) width (n : Int) true intValue indeterminate).output.lines
      = (List.range n).map (fun i => sineLineText width i (intValue i)) := by
  rw [sineMode_mif_eq arg0 rest width n intValue indeterminate hw hn]
  unfold mifDataLines
  rw [mifBody_header _ _ _ _ _ (sine_body_ne_end width intValue n),
    filter_nonblank _ (sine_lines_nonblank width intValue n)]

/-- C14, as the code has it: sine mode accepts every width in [2,32]: for
every length of at least 1 such a run ends without a diagnostic and emits
`length` words, as `length` data lines in MIF output and as `length * wb`
bytes in raw output; every width below 2, width 1 included, is rejected as
a configuration error and nothing is written. -/
theorem sineMode_width_gate (arg0 : String) (rest : List String)
    (low width length indeterminate : Int) (mif : Bool) (intValue : Nat → Int)
    (hlow : low < 2) (hw : 2 ≤ width ∧ width ≤ 32) (hl : 1 ≤ length) :
    sineMode (arg0 :: rest) low length mif intValue indeterminate
        = ⟨TextStream.empty, [], some Diag.sineNoWidth⟩ ∧
      (sineMode (arg0 :: rest) width length true intValue indeterminate).error = none ∧
      mifDataLines (sineMode (arg0 :: rest) width length true intValue indeterminate).output.lines
        = (List.range length.toNat).map (fun i => sineLineText width i (intValue i)) ∧
      ((mifDataLines
          (sineMode (arg0 :: rest) width length true intValue indeterminate).output.lines).length
        : Int) = length ∧
      (sineMode (arg0 :: rest) width length false intValue indeterminate).error = none ∧
      (((sineMode (arg0 :: rest) width length false intValue indeterminate).outputFile.length
          : Nat) : Int) = length * outputWordBytes width indeterminate ∧
      (1 ≤ outputWordBytes width indeterminate ∧ outputWordBytes width indeterminate ≤ 4) := by
  obtain ⟨hwb, hwb1, hwb4⟩ := outputWordBytes_nat width indeterminate ⟨by omega, hw.2⟩
  obtain ⟨n, rfl⟩ := Int.eq_ofNat_of_zero_le (show 0 ≤ length by omega)
  have hn : 1 ≤ n := by omega
  have hlines := sineMode_mif_dataLines arg0 rest width n intValue indeterminate hw.1 hn
  refine ⟨sineMode_rejects_low _ _ _ _ _ _ hlow, ?_, ?_, ?_, ?_, ?_, ⟨by omega, by omega⟩⟩
  · rw [sineMode_mif_eq arg0 rest width n intValue indeterminate hw.1 hn]
  · rw [hlines, Int.toNat_ofNat]
  · rw [hlines, List.length_map, List.length_range]
  · rw [sineMode_raw_eq _ _ _ _ _ hw.1 hn]
  · rw [sineMode_raw_eq _ _ _ _ _ hw.1 hn]
    simp only []
    rw [hwb, sineRaw_length]
    push_cast
    rfl

theorem sineMode_width_gate_witness :
    (1 : Int) < 2 ∧ ((2 : Int) ≤ 12 ∧ (12 : Int) ≤ 32) ∧ (1 : Int) ≤ 3 ∧
      sineMode ("romswak" :: ["sine"]) 1 3 true (fun i => (i : Int) - 1) 0
        = ⟨TextStream.empty, [], some Diag.sineNoWidth⟩ ∧
      ((mifDataLines
          (sineMode ("romswak" :: ["sine"]) 12 3 true (fun i => (i : Int) - 1) 0).output.lines).length
        : Int) = 3 :=
  ⟨by decide, by decide, by decide,
    (sineMode_width_gate "romswak" ["sine"] 1 12 3 0 true (fun i => (i : Int) - 1)
      (by decide) (by decide) (by decide)).1,
    (sineMode_width_gate "romswak" ["sine"] 1 12 3 0 true (fun i => (i : Int) - 1)
      (by decide) (by decide) (by decide)).2.2.2.1⟩

/-- C14 as stated fails at width 1: the width lies in [1,32] and the length
is 4, yet the run is rejected and emits no word, in MIF and in raw output. -/
theorem sineMode_width_one_rejected :
    ((1 : Int) ≤ 1 ∧ (1 : Int) ≤ 32) ∧
      sineMode ["romswak", "sine", "-width", "1", "-length", "4", "-o", "rom.mif", "-mif"]
          1 4 true (fun _ => 1) 0
        = ⟨TextStream.empty, [], some Diag.sineNoWidth⟩ ∧
      sineMode ["romswak", "sine", "-width", "1", "-length", "4", "-o", "rom.bin"]
          1 4 false (fun _ => 1) 0
        = ⟨TextStream.empty, [], some Diag.sineNoWidth⟩ := by
  decide

/-- C15, at a length the code lets through: with length -1 and MIF output
the run is not rejected; it writes the header with `DEPTH = -1;`, two blank
lines and the footer, and ends without a diagnostic; in raw output it
writes nothing and ends without a diagnostic either. -/
theorem sineMode_negative_length :
    (-1 : Int) < 1 ∧
      sineMode ["romswak", "sine", "-width", "8", "-length", "-1", "-o", "rom.mif", "-mif"]
          8 (-1) true (fun _ => 1) 0
        = ⟨⟨["-- romswak sine -width 8 -length -1 -o rom.mif -mif ", "", "DEPTH = -1;",
              "WIDTH = 8;", "ADDRESS_RADIX = DEC;", "DATA_RADIX = BIN;", "", "CONTENT", "BEGIN",
              "", "", "END;"], ""⟩, [], none⟩ ∧
      sineMode ["romswak", "sine", "-width", "8", "-length", "-1", "-o", "rom.bin"]
          8 (-1) false (fun _ => 1) 0
        = ⟨TextStream.empty, [], none⟩ ∧
      sineMode ["romswak", "sine", "-width", "8", "-length", "0", "-o", "rom.mif", "-mif"]
          8 0 true (fun _ => 1) 0
        = ⟨TextStream.empty, [], some Diag.sineNoLength⟩ := by
  decide

/-- C16, as the code has it: in data mode with MIF output a width of 0 (the
value of a missing or unparsable `-width`) is not an error: the run goes on
with width 8 and, once the segments are read, writes the MIF document of
the buffer for 8-bit words, one byte per word, without a diagnostic. -/
theorem dataMode_width_default (arg0 mode : String) (rest : List String)
    (fs : String → Option (List Byte)) (toInt toLongLong : String → Option Int)
    (data : List Byte) (h : readSegments fs toInt toLongLong rest [] = Except.ok data) :
    dataMode (arg0 :: mode :: rest) fs toInt toLongLong 0 true
        = dataMode (arg0 :: mode :: rest) fs toInt toLongLong 8 true ∧
      dataMode (arg0 :: mode :: rest) fs toInt toLongLong 0 true
        = ⟨⟨mifHeaderLines (arg0 :: mode :: rest) (data.length : Int) 8
              ++ (packWords data 1 (data.length : Int)).mapIdx (fun k w => dataLineText 8 k w)
              ++ ["END;"], ""⟩, [], none⟩ := by
  have h8 : inputWordBytes 8 = some ((1 : Nat) : Int) := by decide
  have hdoc := dataEncode_mif_eq arg0 (mode :: rest) data 8 1 h8 (Nat.mod_one _)
  rw [tdiv_natCast, Nat.div_one] at hdoc
  have e0 : dataMode (arg0 :: mode :: rest) fs toInt toLongLong 0 true
      = dataEncode (arg0 :: mode :: rest) data 8 true := by
    unfold dataMode
    simp [h]
  have e8 : dataMode (arg0 :: mode :: rest) fs toInt toLongLong 8 true
      = dataEncode (arg0 :: mode :: rest) data 8 true := by
    unfold dataMode
    simp [h]
  refine ⟨by rw [e0, e8], ?_⟩
  rw [e0, hdoc]
  rfl

theorem dataMode_width_default_witness :
    readSegments (fun name => if name = "f" then some [1, 2] else none)
        (fun _ => none) (fun _ => none) ["f", "-mif", "-o", "rom.mif"] []
        = Except.ok [1, 2] ∧
      dataMode ("romswak" :: "data" :: ["f", "-mif", "-o", "rom.mif"])
          (fun name => if name = "f" then some [1, 2] else none)
          (fun _ => none) (fun _ => none) 0 true
        = dataMode ("romswak" :: "data" :: ["f", "-mif", "-o", "rom.mif"])
          (fun name => if name = "f" then some [1, 2] else none)
          (fun _ => none) (fun _ => none) 8 true :=
  ⟨rfl,
    (dataMode_width_default "romswak" "data" ["f", "-mif", "-o", "rom.mif"]
      (fun name => if name = "f" then some [1, 2] else none)
      (fun _ => none) (fun _ => none) [1, 2] rfl).1⟩

/-- C16 as stated fails at width 0: the run with MIF output is not stopped;
it writes the whole document, declared `WIDTH = 8;`, and ends without a
diagnostic. -/
theorem dataMode_width_zero_writes :
    (0 : Int) < 1 ∧
      dataMode ["romswak", "data", "f", "-mif", "-o", "rom.mif"]
          (fun name => if name = "f" then some [1, 2] else none)
          (fun _ => none) (fun _ => none) 0 true
        = ⟨⟨["-- romswak data f -mif -o rom.mif ", "", "DEPTH = 2;", "WIDTH = 8;",
              "ADDRESS_RADIX = DEC;", "DATA_RADIX = BIN;", "", "CONTENT", "BEGIN",
              "0 : 00000001;", "1 : 00000010;", "END;"], ""⟩, [], none⟩ := by
  decide

/-! ## Range of the samples -/

theorem quantize_unsigned_range {K : Type} [LinearOrderedField K] [FloorRing K]
    (s : K) (scale : Int) (hscale : 0 ≤ scale) (hs : -1 ≤ s ∧ s ≤ 1) :
    1 ≤ quantize s 0 scale false ∧ quantize s 0 scale false ≤ scale + 1 := by
  unfold quantize
  simp only [Bool.false_eq_true, if_false]
  have hS : (0 : K) ≤ (scale : K) := by exact_mod_cast hscale
  have hv0 : (0 : K) ≤ 1 / 2 * s + 0 + 1 / 2 := by linarith [hs.1]
  have hv1 : 1 / 2 * s + 0 + 1 / 2 ≤ (1 : K) := by linarith [hs.2]
  have hx0 : (0 : K) ≤ (1 / 2 * s + 0 + 1 / 2) * (scale : K) := mul_nonneg hv0 hS
  have hx1 : (1 / 2 * s + 0 + 1 / 2) * (scale : K) ≤ (scale : K) := by
    calc (1 / 2 * s + 0 + 1 / 2) * (scale : K) ≤ 1 * (scale : K) :=
          mul_le_mul_of_nonneg_right hv1 hS
      _ = (scale : K) := one_mul _
  have hf0 : 0 ≤ ⌊(1 / 2 * s + 0 + 1 / 2) * (scale : K)⌋ := Int.floor_nonneg.mpr hx0
  have hf1 : ⌊(1 / 2 * s + 0 + 1 / 2) * (scale : K)⌋ ≤ scale := by
    have h := Int.floor_le ((1 / 2 * s + 0 + 1 / 2) * (scale : K))
    exact_mod_cast le_trans h hx1
  constructor <;> omega

theorem quantize_signed_range {K : Type} [LinearOrderedField K] [FloorRing K]
    (s : K) (half : Int) (hhalf : 0 ≤ half) (hs : -1 ≤ s ∧ s ≤ 1) :
    -half ≤ quantize s 0 (2 * half) true ∧ quantize s 0 (2 * half) true ≤ half := by
  unfold quantize
  simp only [if_true]
  have hH : (0 : K) ≤ (half : K) := by exact_mod_cast hhalf
  have e : (1 / 2 * s + 0 + 0) * (((2 * half : Int)) : K) = s * (half : K) := by
    push_cast; ring
  rw [e]
  have hx0 : -(half : K) ≤ s * (half : K) := by nlinarith [hs.1]
  have hx1 : s * (half : K) ≤ (half : K) := by nlinarith [hs.2]
  have hf0 : -half ≤ ⌊s * (half : K)⌋ := by
    apply Int.le_floor.mpr
    push_cast
    exact hx0
  have hf1 : ⌊s * (half : K)⌋ ≤ half := by
    have h := Int.floor_le (s * (half : K))
    exact_mod_cast le_trans h hx1
  constructor <;> omega

/-- C18: with the default scale and offset 0 every sample fits in `width`
bits: for every width in [2,30] and every value `s` of the sine in [-1,1]
(so for every length and index), the unsigned sample lies in
`[1, 2^width - 1]` and the signed sample in
`[-(2^(width-1) - 1), 2^(width-1) - 1]`; the arithmetic of lines 118-119 is
taken exact. -/
theorem quantize_default_fits {K : Type} [LinearOrderedField K] [FloorRing K]
    (s : K) (width undefinedShift : Int) (hw : 2 ≤ width ∧ width ≤ 30)
    (hs : -1 ≤ s ∧ s ≤ 1) :
    sineScale width 0 undefinedShift = 2 ^ width.toNat - 2 ∧
      (1 ≤ quantize s 0 (sineScale width 0 undefinedShift) false ∧
        quantize s 0 (sineScale width 0 undefinedShift) false ≤ 2 ^ width.toNat - 1) ∧
      (-(2 ^ (width.toNat - 1) - 1) ≤ quantize s 0 (sineScale width 0 undefinedShift) true ∧
        quantize s 0 (sineScale width 0 undefinedShift) true ≤ 2 ^ (width.toNat - 1) - 1) := by
  have hscale := sineScale_default width undefinedShift ⟨hw.1, by omega⟩
  obtain ⟨n, rfl⟩ := Int.eq_ofNat_of_zero_le (show 0 ≤ width by omega)
  rw [Int.toNat_ofNat] at hscale ⊢
  obtain ⟨m, rfl⟩ : ∃ m, n = m + 1 := ⟨n - 1, by omega⟩
  have hm : 1 ≤ m := by omega
  have hp : (2 : Int) ^ 1 ≤ 2 ^ m := pow_le_pow_right₀ (by norm_num) hm
  have h2 : (2 : Int) ^ (m + 1) - 2 = 2 * (2 ^ m - 1) := by rw [pow_succ]; ring
  rw [hscale, Nat.add_sub_cancel]
  refine ⟨rfl, ?_, ?_⟩
  · have h := quantize_unsigned_range s ((2 : Int) ^ (m + 1) - 2) (by rw [h2]; omega) hs
    constructor
    · exact h.1
    · have := h.2
      omega
  · rw [h2]
    exact quantize_signed_range s ((2 : Int) ^ m - 1) (by omega) hs

theorem quantize_default_fits_witness :
    ((2 : Int) ≤ 8 ∧ (8 : Int) ≤ 30) ∧ ((-1 : ℚ) ≤ 1 / 2 ∧ (1 / 2 : ℚ) ≤ 1) ∧
      (1 ≤ quantize (1 / 2 : ℚ) 0 (sineScale 8 0 0) false ∧
        quantize (1 / 2 : ℚ) 0 (sineScale 8 0 0) false ≤ 2 ^ (8 : Int).toNat - 1) :=
  ⟨by decide, by norm_num,
    (quantize_default_fits (1 / 2 : ℚ) 8 0 (by decide) (by norm_num)).2.1⟩

/-- The sample of index 0 for width 8, unsigned, offset 0 and the default
scale 254, the sine of phase 0 being 0: it is 128. -/
theorem quantize_index_zero : quantize (0 : ℚ) 0 (sineScale 8 0 0) false = 128 := by
  have h : sineScale 8 0 0 = 254 := by decide
  rw [h]
  unfold quantize
  norm_num

/-! ## Raw words and the width -/

theorem writeBigEndian_value (sample : Int) (wb : Nat) (hwb : 1 ≤ wb ∧ wb ≤ 4) :
    ((bigEndianValue (writeBigEndian sample (wb : Int) []) : Nat) : Int)
      = sample % 2 ^ (8 * wb) := by
  have e := writeBigEndian_eq sample wb []
  rw [List.nil_append] at e
  rw [e]
  exact bigEndianValue_bytes sample wb hwb

theorem sineRaw_flatten (intValue : Nat → Int) (wb n : Nat) :
    forLoop (n : Int) (fun i file => writeBigEndian (intValue i) (wb : Int) file)
        ([] : List Byte)
      = ((List.range n).map (fun i => writeBigEndian (intValue i) (wb : Int) [])).flatten := by
  induction n with
  | zero => rw [forLoop_zero, List.range_zero, List.map_nil, List.flatten_nil]
  | succ n ih =>
    rw [forLoop_succ, ih, List.range_succ, List.map_append, List.flatten_append,
      List.map_singleton, List.flatten_singleton, writeBigEndian_eq,
      writeBigEndian_eq (intValue n) wb [], List.nil_append]

/-- C19, as the code has it: for every width in [2,32] and every sample, the
`wb` bytes the raw branch of sine mode writes for the sample, read as a
big-endian unsigned number, are the sample modulo `2^(8*wb)`: the word is
cut to whole bytes, not to `width` bits. They are the sample modulo
`2^width` when the width is a multiple of 8, and when the sample lies in
`[0, 2^width)`. The raw file is the concatenation of these byte groups. -/
theorem writeBigEndian_masks_bytes (args : List String) (sample width length indeterminate : Int)
    (intValue : Nat → Int) (hw : 2 ≤ width ∧ width ≤ 32) (hl : 1 ≤ length) :
    ((bigEndianValue (writeBigEndian sample (outputWordBytes width indeterminate) []) : Nat)
        : Int) = sample % 2 ^ (8 * (outputWordBytes width indeterminate).toNat) ∧
      (width % 8 = 0 →
        ((bigEndianValue (writeBigEndian sample (outputWordBytes width indeterminate) [])
          : Nat) : Int) = sample % 2 ^ width.toNat) ∧
      (0 ≤ sample → sample < 2 ^ width.toNat →
        ((bigEndianValue (writeBigEndian sample (outputWordBytes width indeterminate) [])
          : Nat) : Int) = sample % 2 ^ width.toNat) ∧
      (sineMode args width length false intValue indeterminate).outputFile
        = ((List.range length.toNat).map
            (fun i => writeBigEndian (intValue i) (outputWordBytes width indeterminate) [])).flatten
      := by
  obtain ⟨hwb, hwb1, hwb4⟩ := outputWordBytes_nat width indeterminate ⟨by omega, hw.2⟩
  have hval := writeBigEndian_value sample ((width + 7) / 8).toNat ⟨hwb1, hwb4⟩
  rw [hwb, Int.toNat_ofNat]
  refine ⟨hval, ?_, ?_, ?_⟩
  · intro h8
    have e : 8 * ((width + 7) / 8).toNat = width.toNat := by omega
    rw [hval, e]
  · intro h0 hlt
    have hle : width.toNat ≤ 8 * ((width + 7) / 8).toNat := by omega
    have hpow : (2 : Int) ^ width.toNat ≤ 2 ^ (8 * ((width + 7) / 8).toNat) :=
      pow_le_pow_right₀ (by norm_num) hle
    rw [hval, Int.emod_eq_of_lt h0 (lt_of_lt_of_le hlt hpow), Int.emod_eq_of_lt h0 hlt]
  · obtain ⟨n, rfl⟩ := Int.eq_ofNat_of_zero_le (show 0 ≤ length by omega)
    rw [sineMode_raw_eq _ _ _ _ _ hw.1 (by omega)]
    simp only []
    rw [hwb, sineRaw_flatten, Int.toNat_ofNat]

theorem writeBigEndian_masks_bytes_witness :
    ((2 : Int) ≤ 12 ∧ (12 : Int) ≤ 32) ∧ (1 : Int) ≤ 2 ∧
      ((bigEndianValue (writeBigEndian (-1) (outputWordBytes 12 0) []) : Nat) : Int)
        = (-1) % 2 ^ (8 * (outputWordBytes 12 0).toNat) :=
  ⟨by decide, by decide,
    (writeBigEndian_masks_bytes ["romswak", "sine"] (-1) 12 2 0 (fun _ => -1)
      (by decide) (by decide)).1⟩

/-- C19 as stated fails at width 12 with the sample -1: the two bytes
written read as 65535, while the sample modulo `2^12` is 4095; the bits
above the width carry the sign. -/
theorem writeBigEndian_sign_leak :
    outputWordBytes 12 0 = 2 ∧
      ((bigEndianValue (writeBigEndian (-1) (outputWordBytes 12 0) []) : Nat) : Int) = 65535 ∧
      (-1 : Int) % 2 ^ 12 = 4095 ∧
      ((bigEndianValue (writeBigEndian (-1) (outputWordBytes 12 0) []) : Nat) : Int)
        ≠ (-1 : Int) % 2 ^ 12 := by
  have h2 : outputWordBytes 12 0 = ((2 : Nat) : Int) := by decide
  have hv := writeBigEndian_value (-1) 2 ⟨by decide, by decide⟩
  have hm : (-1 : Int) % 2 ^ (8 * 2) = 65535 := by decide
  have hm12 : (-1 : Int) % 2 ^ 12 = 4095 := by decide
  rw [hm] at hv
  rw [h2, hv, hm12]
  exact ⟨rfl, rfl, rfl, by decide⟩

/-! ## Packing followed by the write loop -/

theorem serializeWords_acc (words : List Int) (wb : Nat) (file : List Byte) :
    words.foldl (fun file word => writeBigEndian word (wb : Int) file) file
      = file ++ (words.map (fun w => (List.range wb).map (bigEndianByte w wb))).flatten := by
  induction words generalizing file with
  | nil => rw [List.foldl_nil, List.map_nil, List.flatten_nil, List.append_nil]
  | cons w ws ih =>
    rw [List.foldl_cons, ih, writeBigEndian_eq, List.map_cons, List.flatten_cons,
      List.append_assoc]

theorem serializeWords_eq (words : List Int) (wb : Nat) :
    serializeWords words (wb : Int)
      = (words.map (fun w => (List.range wb).map (bigEndianByte w wb))).flatten := by
  unfold serializeWords
  rw [serializeWords_acc, List.nil_append]

/-- The byte the write loop emits at pass `j` for the wrapped value `v` is
the byte of `v` at that place. -/
theorem bigEndianByte_wrap32 (v wb j : Nat) (b : Byte) (hwb : wb ≤ 4) (hj : j < wb)
    (hb : v / 2 ^ ((wb - j - 1) * 8) % 256 = b.val) :
    bigEndianByte (wrap32 (v : Int)) wb j = b := by
  apply Fin.ext
  have h := bigEndianByte_val (wrap32 (v : Int)) wb j
  have hk : wb - j - 1 = 0 ∨ wb - j - 1 = 1 ∨ wb - j - 1 = 2 ∨ wb - j - 1 = 3 := by omega
  have hbl := b.isLt
  have hw : wrap32 (v : Int) = ((v : Int) + 2 ^ 31) % 2 ^ 32 - 2 ^ 31 := by unfold wrap32; rfl
  generalize wrap32 (v : Int) = w at h hw ⊢
  have hvl := (bigEndianByte w wb j).isLt
  rcases hk with hk | hk | hk | hk <;> rw [hk] at h hb <;> norm_num at h hb <;> omega

theorem bytes_of_packed (chunk : List Byte) (h1 : 1 ≤ chunk.length) (h4 : chunk.length ≤ 4) :
    (List.range chunk.length).map
        (bigEndianByte (wrap32 (bigEndianValue chunk)) chunk.length) = chunk := by
  rcases chunk with _ | ⟨b0, _ | ⟨b1, _ | ⟨b2, _ | ⟨b3, _ | ⟨b4, t⟩⟩⟩⟩⟩
  · simp at h1
  · have l0 := b0.isLt
    have e0 := bigEndianByte_wrap32 (bigEndianValue [b0]) 1 0 b0 (by omega) (by omega)
      (by simp only [bigEndianValue, List.foldl_cons, List.foldl_nil]; omega)
    simp only [List.length_cons, List.length_nil, List.range_succ, List.range_zero,
      List.nil_append, List.map_cons, List.map_nil, e0]
  · have l0 := b0.isLt
    have l1 := b1.isLt
    have e0 := bigEndianByte_wrap32 (bigEndianValue [b0, b1]) 2 0 b0 (by omega) (by omega)
      (by simp only [bigEndianValue, List.foldl_cons, List.foldl_nil]; omega)
    have e1 := bigEndianByte_wrap32 (bigEndianValue [b0, b1]) 2 1 b1 (by omega) (by omega)
      (by simp only [bigEndianValue, List.foldl_cons, List.foldl_nil]; omega)
    simp only [List.length_cons, List.length_nil, List.range_succ, List.range_zero,
      List.nil_append, List.cons_append, List.map_cons, List.map_nil, e0, e1]
  · have l0 := b0.isLt
    have l1 := b1.isLt
    have l2 := b2.isLt
    have e0 := bigEndianByte_wrap32 (bigEndianValue [b0, b1, b2]) 3 0 b0 (by omega) (by omega)
      (by simp only [bigEndianValue, List.foldl_cons, List.foldl_nil]; omega)
    have e1 := bigEndianByte_wrap32 (bigEndianValue [b0, b1, b2]) 3 1 b1 (by omega) (by omega)
      (by simp only [bigEndianValue, List.foldl_cons, List.foldl_nil]; omega)
    have e2 := bigEndianByte_wrap32 (bigEndianValue [b0, b1, b2]) 3 2 b2 (by omega) (by omega)
      (by simp only [bigEndianValue, List.foldl_cons, List.foldl_nil]; omega)
    simp only [List.length_cons, List.length_nil, List.range_succ, List.range_zero,
      List.nil_append, List.cons_append, List.map_cons, List.map_nil, e0, e1, e2]
  · have l0 := b0.isLt
    have l1 := b1.isLt
    have l2 := b2.isLt
    have l3 := b3.isLt
    have e0 := bigEndianByte_wrap32 (bigEndianValue [b0, b1, b2, b3]) 4 0 b0 (by omega)
      (by omega) (by simp only [bigEndianValue, List.foldl_cons, List.foldl_nil]; omega)
    have e1 := bigEndianByte_wrap32 (bigEndianValue [b0, b1, b2, b3]) 4 1 b1 (by omega)
      (by omega) (by simp only [bigEndianValue, List.foldl_cons, List.foldl_nil]; omega)
    have e2 := bigEndianByte_wrap32 (bigEndianValue [b0, b1, b2, b3]) 4 2 b2 (by omega)
      (by omega) (by simp only [bigEndianValue, List.foldl_cons, List.foldl_nil]; omega)
    have e3 := bigEndianByte_wrap32 (bigEndianValue [b0, b1, b2, b3]) 4 3 b3 (by omega)
      (by omega) (by simp only [bigEndianValue, List.foldl_cons, List.foldl_nil]; omega)
    simp only [List.length_cons, List.length_nil, List.range_succ, List.range_zero,
      List.nil_append, List.cons_append, List.map_cons, List.map_nil, e0, e1, e2, e3]
  · simp only [List.length_cons] at h4
    omega

theorem chunks_flatten (data : List Byte) (wb k : Nat) :
    ((List.range k).map (fun i => (data.drop (i * wb)).take wb)).flatten
      = data.take (k * wb) := by
  induction k with
  | zero => rw [List.range_zero, List.map_nil, List.flatten_nil, Nat.zero_mul, List.take_zero]
  | succ k ih =>
    rw [List.range_succ, List.map_append, List.flatten_append, ih, List.map_singleton,
      List.flatten_singleton, Nat.succ_mul, List.take_add]

theorem chunk_length (data : List Byte) (wb k : Nat) (hk : k < data.length / wb) :
    ((data.drop (k * wb)).take wb).length = wb := by
  have hle : (k + 1) * wb ≤ data.length := by
    calc (k + 1) * wb ≤ (data.length / wb) * wb := Nat.mul_le_mul_right _ hk
      _ ≤ data.length := Nat.div_mul_le_self _ _
  rw [List.length_take, List.length_drop]
  have : (k + 1) * wb = k * wb + wb := by ring
  omega

/-- C20: for every `wb` in 1..4 and every buffer whose length is divisible
by `wb`, packing the buffer into big-endian words with the packing loop of
data mode (in `int` arithmetic that wraps to 32 bits) and writing each word
with the `wb`-byte big-endian write loop gives back the buffer byte for
byte, which is what data mode writes in raw output. -/
theorem serialize_packWords (args : List String) (data : List Byte) (width : Int) (wb : Nat)
    (hwb : 1 ≤ wb ∧ wb ≤ 4) (hdiv : data.length % wb = 0) :
    serializeWords (packWords data (wb : Int) (Int.tdiv (data.length : Int) (wb : Int)))
        (wb : Int) = data ∧
      (dataEncode args data width false).outputFile
        = serializeWords (packWords data (wb : Int) (Int.tdiv (data.length : Int) (wb : Int)))
            (wb : Int) := by
  have hmain : serializeWords
      (packWords data (wb : Int) (Int.tdiv (data.length : Int) (wb : Int))) (wb : Int)
      = data := by
    rw [packWords_eq, serializeWords_eq, List.map_map]
    have hchunks : (List.range (data.length / wb)).map
        ((fun w => (List.range wb).map (bigEndianByte w wb)) ∘
          (fun k => wrap32 (bigEndianValue ((data.drop (k * wb)).take wb))))
        = (List.range (data.length / wb)).map (fun k => (data.drop (k * wb)).take wb) := by
      apply List.map_congr_left
      intro k hk
      have hlen := chunk_length data wb k (List.mem_range.mp hk)
      have h := bytes_of_packed ((data.drop (k * wb)).take wb) (by omega) (by omega)
      rw [hlen] at h
      exact h
    rw [hchunks, chunks_flatten, Nat.div_mul_cancel (Nat.dvd_of_mod_eq_zero hdiv),
      List.take_length]
  refine ⟨hmain, ?_⟩
  rw [hmain, dataEncode_raw]

theorem serialize_packWords_witness :
    (1 ≤ 3 ∧ 3 ≤ 4) ∧ ([1, 2, 3, 4, 255, 254] : List Byte).length % 3 = 0 ∧
      packWords [1, 2, 3, 4, 255, 254] 3 2 = [0x010203, 0x04FFFE] ∧
      serializeWords
          (packWords [1, 2, 3, 4, 255, 254] ((3 : Nat) : Int)
            (Int.tdiv (([1, 2, 3, 4, 255, 254] : List Byte).length : Int) ((3 : Nat) : Int)))
          ((3 : Nat) : Int)
        = [1, 2, 3, 4, 255, 254] :=
  ⟨by decide, by decide, by decide,
    (serialize_packWords ["romswak", "data"] [1, 2, 3, 4, 255, 254] 24 3
      (by decide) (by decide)).1⟩

/-! ## One grammar for the two modes -/

theorem digitChar_ne_semicolon (d : Nat) : Nat.digitChar d ≠ ';' := by
  by_cases h : d < 16
  · interval_cases d <;> decide
  · have hs : Nat.digitChar d = '*' := by
      have hne : ∀ k, k < 16 → ¬ d = k := fun k hk => by omega
      unfold Nat.digitChar
      iterate 16 rw [if_neg (hne _ (by decide))]
    rw [hs]
    decide

theorem toDigitsCore_no_semicolon (fuel n : Nat) (ds : List Char) (h : ';' ∉ ds) :
    ';' ∉ Nat.toDigitsCore 10 fuel n ds := by
  induction fuel generalizing n ds with
  | zero => simpa [Nat.toDigitsCore] using h
  | succ fuel ih =>
    have hcons : ';' ∉ Nat.digitChar (n % 10) :: ds := by
      intro hm
      rcases List.mem_cons.mp hm with h1 | h1
      · exact digitChar_ne_semicolon _ h1.symm
      · exact h h1
    rw [Nat.toDigitsCore]
    split_ifs
    · exact hcons
    · exact ih _ _ hcons

theorem natRepr_no_semicolon (k : Nat) : ';' ∉ (toString k).data := by
  show ';' ∉ (Nat.repr k).data
  unfold Nat.repr Nat.toDigits
  exact toDigitsCore_no_semicolon _ _ _ (by simp)

theorem intRepr_no_semicolon (z : Int) : ';' ∉ (toString z).data := by
  cases z with
  | ofNat n => exact natRepr_no_semicolon n
  | negSucc n =>
    show ';' ∉ ("-" ++ toString (n + 1)).data
    rw [String.data_append]
    intro h
    rcases List.mem_append.mp h with h1 | h1
    · revert h1; decide
    · exact natRepr_no_semicolon _ h1

theorem cutAfterSemicolon_append (xs ys : List Char) (h : ';' ∉ xs) :
    cutAfterSemicolon (xs ++ ';' :: ys) = xs ++ [';'] := by
  induction xs with
  | nil => simp [cutAfterSemicolon]
  | cons c cs ih =>
    have hc : c ≠ ';' := fun e => h (by rw [e]; exact List.mem_cons_self _ _)
    have hcs : ';' ∉ cs := fun e => h (List.mem_cons_of_mem _ e)
    rw [List.cons_append, cutAfterSemicolon, if_neg hc, ih hcs, List.cons_append]

theorem stripComment_closed (pre : String) (h : ';' ∉ pre.data) :
    stripComment (pre ++ ";") = pre ++ ";" := by
  apply String.ext
  show cutAfterSemicolon (pre ++ ";").data = (pre ++ ";").data
  rw [String.data_append]
  exact cutAfterSemicolon_append pre.data [] h

theorem dataLine_prefix_no_semicolon (width : Int) (k : Nat) (value : Int) :
    ';' ∉ (toString k ++ " : " ++ intToBin value width).data := by
  rw [String.data_append, String.data_append]
  intro h
  rcases List.mem_append.mp h with h1 | h1
  · rcases List.mem_append.mp h1 with h2 | h2
    · exact natRepr_no_semicolon k h2
    · revert h2; decide
  · rcases intToBinLoop_digits _ _ _ h1 with h2 | h2 <;> revert h2 <;> decide

theorem stripComment_sineLine (width : Int) (k : Nat) (value : Int) :
    stripComment (sineLineText width k value) = dataLineText width k value := by
  apply String.ext
  show cutAfterSemicolon (sineLineText width k value).data = (dataLineText width k value).data
  have hs : (sineLineText width k value).data
      = (toString k ++ " : " ++ intToBin value width).data
          ++ ';' :: ("       -- " ++ toString value).data := by
    simp [sineLineText, String.data_append]
  have hd : (dataLineText width k value).data
      = (toString k ++ " : " ++ intToBin value width).data ++ [';'] := by
    simp [dataLineText, String.data_append]
  rw [hs, hd]
  exact cutAfterSemicolon_append _ _ (dataLine_prefix_no_semicolon width k value)

theorem stripComment_depthToBegin (wordCount wordWidth : Int) :
    (depthToBegin wordCount wordWidth).map stripComment = depthToBegin wordCount wordWidth := by
  have h1 : stripComment ("DEPTH = " ++ toString wordCount ++ ";")
      = "DEPTH = " ++ toString wordCount ++ ";" := by
    apply stripComment_closed
    rw [String.data_append]
    intro h
    rcases List.mem_append.mp h with h2 | h2
    · revert h2; decide
    · exact intRepr_no_semicolon _ h2
  have h2 : stripComment ("WIDTH = " ++ toString wordWidth ++ ";")
      = "WIDTH = " ++ toString wordWidth ++ ";" := by
    apply stripComment_closed
    rw [String.data_append]
    intro h
    rcases List.mem_append.mp h with h2 | h2
    · revert h2; decide
    · exact intRepr_no_semicolon _ h2
  have h3 : stripComment "ADDRESS_RADIX = DEC;" = "ADDRESS_RADIX = DEC;" := by decide
  have h4 : stripComment "DATA_RADIX = BIN;" = "DATA_RADIX = BIN;" := by decide
  have h5 : stripComment "" = "" := by decide
  have h6 : stripComment "CONTENT" = "CONTENT" := by decide
  have h7 : stripComment "BEGIN" = "BEGIN" := by decide
  simp only [depthToBegin, List.map_cons, List.map_nil, h1, h2, h3, h4, h5, h6, h7]

theorem fromDepth_header (arg0 : String) (rest : List String) (wordCount wordWidth : Int)
    (more : List String) :
    fromDepth (mifHeaderLines (arg0 :: rest) wordCount wordWidth ++ more)
      = depthToBegin wordCount wordWidth ++ more := by
  simp [fromDepth, mifHeaderLines, depthToBegin, List.dropWhile, String.data_append,
    List.isPrefixOf]

theorem mapIdx_getD (words : List Int) (f : Nat → Int → String) :
    (List.range words.length).map (fun i => f i (words.getD i 0)) = words.mapIdx f := by
  apply List.ext_getElem
  · simp
  · intro i h1 h2
    have hi : i < words.length := by simpa using h1
    simp [List.getD_eq_getElem?_getD, List.getElem?_eq_getElem hi]

/-- C17, as the code has it: for the same width and the same word sequence,
the sine-mode document with the trailing comment removed from each data
line and the data-mode document agree line by line from the `DEPTH`
declaration to `BEGIN`, on the data lines and on `END;`; they differ in
that sine mode writes a blank line after `BEGIN` and a blank line before
`END;`, and data mode writes neither. -/
theorem mif_grammar_modes (sineArg0 : String) (sineRest : List String)
    (dataArg0 : String) (dataRest : List String) (data : List Byte)
    (width wb indeterminate : Int) (hw : 2 ≤ width)
    (hwb : inputWordBytes width = some wb) (hdiv : (data.length : Int) % wb = 0)
    (hne : wb ≤ (data.length : Int)) :
    (fromDepth (sineMode (sineArg0 :: sineRest) width
          ((packWords data wb (Int.tdiv data.length wb)).length : Int) true
          (fun i => (packWords data wb (Int.tdiv data.length wb)).getD i 0)
          indeterminate).output.lines).map stripComment
        = depthToBegin ((packWords data wb (Int.tdiv data.length wb)).length : Int) width
            ++ [""]
            ++ (packWords data wb (Int.tdiv data.length wb)).mapIdx
                (fun k w => dataLineText width k w)
            ++ [""] ++ ["END;"] ∧
      fromDepth (dataEncode (dataArg0 :: dataRest) data width true).output.lines
        = depthToBegin ((packWords data wb (Int.tdiv data.length wb)).length : Int) width
            ++ (packWords data wb (Int.tdiv data.length wb)).mapIdx
                (fun k w => dataLineText width k w)
            ++ ["END;"] := by
  obtain ⟨m, rfl, hm1, hm4⟩ := inputWordBytes_nat width wb hwb
  have hd : data.length % m = 0 := by exact_mod_cast hdiv
  have hmN : m ≤ data.length := by exact_mod_cast hne
  have hlen : (packWords data (m : Int) (Int.tdiv (data.length : Int) (m : Int))).length
      = data.length / m := by
    rw [packWords_eq, List.length_map, List.length_range]
  have hpos : 1 ≤ data.length / m := (Nat.one_le_div_iff (by omega)).mpr hmN
  generalize hwords : packWords data (m : Int) (Int.tdiv (data.length : Int) (m : Int))
    = words at hlen
  constructor
  · rw [sineMode_mif_eq sineArg0 sineRest width words.length _ indeterminate hw (by omega)]
    simp only [List.append_assoc]
    rw [fromDepth_header]
    simp only [List.map_append, List.map_cons, List.map_nil, List.map_map,
      stripComment_depthToBegin]
    have hl : (List.range words.length).map
        (stripComment ∘ fun i => sineLineText width i (words.getD i 0))
        = words.mapIdx (fun k w => dataLineText width k w) := by
      rw [← mapIdx_getD]
      apply List.map_congr_left
      intro i _
      exact stripComment_sineLine width i _
    rw [hl]
    rfl
  · rw [dataEncode_mif_eq dataArg0 dataRest data width m hwb hd, hwords]
    simp only [List.append_assoc]
    rw [fromDepth_header, hlen]

theorem mif_grammar_modes_witness :
    (2 : Int) ≤ 8 ∧ inputWordBytes 8 = some 1 ∧
      ((([1, 2] : List Byte).length : Nat) : Int) % 1 = 0 ∧
      (1 : Int) ≤ ((([1, 2] : List Byte).length : Nat) : Int) ∧
      fromDepth (dataEncode ("romswak" :: ["data", "f", "-mif"]) [1, 2] 8 true).output.lines
        = depthToBegin ((packWords [1, 2] 1 (Int.tdiv (([1, 2] : List Byte).length : Int) 1)).length
              : Int) 8
            ++ (packWords [1, 2] 1 (Int.tdiv (([1, 2] : List Byte).length : Int) 1)).mapIdx
                (fun k w => dataLineText 8 k w)
            ++ ["END;"] :=
  ⟨by decide, by decide, by decide, by decide,
    (mif_grammar_modes "romswak" ["sine", "-mif"] "romswak" ["data", "f", "-mif"] [1, 2] 8 1 0
      (by decide) (by decide) (by decide) (by decide)).2⟩

/-- C17 as stated fails: for width 8 and the words 1, 2 the sine-mode
document without its trailing comments has a blank line after `BEGIN` and
one before `END;`, the data-mode document has none, so the two differ from
the `DEPTH` line on. -/
theorem mif_grammar_blank_lines_differ :
    packWords [1, 2] 1 2 = [1, 2] ∧
      (fromDepth (sineMode ["romswak", "sine", "-mif"] 8 2 true
          (fun i => ([1, 2] : List Int).getD i 0) 0).output.lines).map stripComment
        = ["DEPTH = 2;", "WIDTH = 8;", "ADDRESS_RADIX = DEC;", "DATA_RADIX = BIN;", "",
           "CONTENT", "BEGIN", "", "0 : 00000001;", "1 : 00000010;", "", "END;"] ∧
      fromDepth (dataEncode ["romswak", "data", "f", "-mif"] [1, 2] 8 true).output.lines
        = ["DEPTH = 2;", "WIDTH = 8;", "ADDRESS_RADIX = DEC;", "DATA_RADIX = BIN;", "",
           "CONTENT", "BEGIN", "0 : 00000001;", "1 : 00000010;", "END;"] ∧
      (fromDepth (sineMode ["romswak", "sine", "-mif"] 8 2 true
          (fun i => ([1, 2] : List Int).getD i 0) 0).output.lines).map stripComment
        ≠ fromDepth (dataEncode ["romswak", "data", "f", "-mif"] [1, 2] 8 true).output.lines := by
  decide

end Romswak
